import Mathlib

/-!
Verification of the generic binary heap (`pkg/heap`) and the priority queue
built on top of it (`pkg/priority_queue`) from the ctci-6th-edition Go
repository.  The backing slice `items []*T` is modelled as a `List α`, the
comparison function `cmpFn func(a, b *T) int` as `cmp : α → α → Int`, and Go
`int` values as `Int` (index arithmetic that is provably non-negative is
carried out over `Nat`; the public `DownHeap` entry point, which performs no
bounds check, is additionally modelled over `Int` with an explicit panic
outcome to capture Go's behaviour on negative indices).
-/

set_option maxHeartbeats 1000000

namespace HeapGo

/-- `Left` from the source: index of the left child, `2*i + 1`. -/
def Left (i : Nat) : Nat := 2 * i + 1

/-- `Right` from the source: index of the right child, `2*(i + 1)`. -/
def Right (i : Nat) : Nat := 2 * (i + 1)

/-- `Parent` from the source: `(i - 1) / 2`.  Go truncated division agrees
with `Nat` subtraction/division here: for `i = 0` Go computes `-1/2 = 0`. -/
def Parent (i : Nat) : Nat := (i - 1) / 2

theorem parent_le (i : Nat) : Parent i ≤ i := by
  unfold Parent; omega

theorem parent_lt {i : Nat} (h : 0 < i) : Parent i < i := by
  unfold Parent; omega

theorem lt_left (i : Nat) : i < Left i := by
  unfold Left; omega

theorem lt_right (i : Nat) : i < Right i := by
  unfold Right; omega

theorem parent_left (i : Nat) : Parent (Left i) = i := by
  unfold Parent Left; omega

theorem parent_right (i : Nat) : Parent (Right i) = i := by
  unfold Parent Right; omega

/-- Children of `i` are exactly `Left i` and `Right i`. -/
theorem child_cases {i j : Nat} (h0 : 0 < j) (h : Parent j = i) :
    j = Left i ∨ j = Right i := by
  unfold Parent at h; unfold Left Right; omega

/-- `swap` from the source:
`h.items[i], h.items[j] = h.items[j], h.items[i]`.
Both accesses are in range at every call site; the fallthrough branch is
unreachable there. -/
def swap (a : List α) (i j : Nat) : List α :=
  match a[i]?, a[j]? with
  | some x, some y => (a.set i y).set j x
  | _, _ => a

/-- Comparison of the items stored at two slots, `cmpFn(items[i], items[j])`.
Both accesses are in range at every use below (`0` is never produced). -/
def cmpAt (cmp : α → α → Int) (a : List α) (i j : Nat) : Int :=
  match a[i]?, a[j]? with
  | some x, some y => cmp x y
  | _, _ => 0

@[simp] theorem swap_length (a : List α) (i j : Nat) :
    (swap a i j).length = a.length := by
  unfold swap
  cases hi : a[i]? <;> cases hj : a[j]? <;> simp

/-- Index transposition: where the element now at slot `k` of `swap a i j`
came from in `a`. -/
def swId (i j k : Nat) : Nat := if k = i then j else if k = j then i else k

theorem swap_getElem? (a : List α) {i j : Nat}
    (hi : i < a.length) (hj : j < a.length) (k : Nat) :
    (swap a i j)[k]? = a[swId i j k]? := by
  unfold swap swId
  rw [List.getElem?_eq_getElem hi, List.getElem?_eq_getElem hj]
  by_cases hkj : k = j
  · subst hkj
    rw [List.getElem?_set_self (by simpa using hj)]
    by_cases hki : k = i
    · subst hki; simp [List.getElem?_eq_getElem hj]
    · simp [hki, List.getElem?_eq_getElem hi]
  · rw [List.getElem?_set_ne (Ne.symm hkj)]
    by_cases hki : k = i
    · subst hki
      rw [List.getElem?_set_self hi]
      simp [hkj, List.getElem?_eq_getElem hj]
    · rw [List.getElem?_set_ne (Ne.symm hki)]
      simp [hki, hkj]

theorem swap_cmpAt (cmp : α → α → Int) (a : List α) {i j : Nat}
    (hi : i < a.length) (hj : j < a.length) (k m : Nat) :
    cmpAt cmp (swap a i j) k m = cmpAt cmp a (swId i j k) (swId i j m) := by
  unfold cmpAt
  rw [swap_getElem? a hi hj k, swap_getElem? a hi hj m]

theorem cmpAt_eq (cmp : α → α → Int) (a : List α) {i j : Nat}
    (hi : i < a.length) (hj : j < a.length) :
    cmpAt cmp a i j = cmp a[i] a[j] := by
  unfold cmpAt
  rw [List.getElem?_eq_getElem hi, List.getElem?_eq_getElem hj]

/-- `upHeap` from the source: repeatedly swap the slot with its parent while
the parent compares strictly below it.  Go computes `parentIndex` first and
then tests `index == 0 || cmpFn(items[parentIndex], items[index]) >= 0`;
the nested conditionals below reproduce that short-circuit evaluation. -/
def upHeap (cmp : α → α → Int) (a : List α) (index : Nat) : List α :=
  if h : index = 0 then a
  else if 0 ≤ cmpAt cmp a (Parent index) index then a
  else upHeap cmp (swap a (Parent index) index) (Parent index)
termination_by index
decreasing_by exact parent_lt (Nat.pos_of_ne_zero h)

/-- One conditional update of `largest` inside `downHeapWithSize`:
`if child < heapSize && cmpFn(items[child], items[largest]) > 0 { largest = child }`. -/
def dhStep (cmp : α → α → Int) (a : List α) (bound largest child : Nat) : Nat :=
  if child < bound ∧ 0 < cmpAt cmp a child largest then child else largest

/-- The value of `largest` after the two child tests of `downHeapWithSize`. -/
def dhLargest (cmp : α → α → Int) (a : List α) (index bound : Nat) : Nat :=
  dhStep cmp a bound (dhStep cmp a bound index (Left index)) (Right index)

theorem dhStep_cases (cmp : α → α → Int) (a : List α) (bound largest child : Nat) :
    dhStep cmp a bound largest child = largest ∨
      (dhStep cmp a bound largest child = child ∧ child < bound ∧
        0 < cmpAt cmp a child largest) := by
  unfold dhStep
  split
  · next h => exact Or.inr ⟨rfl, h.1, h.2⟩
  · exact Or.inl rfl

theorem dhLargest_cases (cmp : α → α → Int) (a : List α) (index bound : Nat) :
    dhLargest cmp a index bound = index ∨
      (index < dhLargest cmp a index bound ∧ dhLargest cmp a index bound < bound) := by
  unfold dhLargest
  rcases dhStep_cases cmp a bound (dhStep cmp a bound index (Left index)) (Right index) with
    h | ⟨h, hb, _⟩
  · rw [h]
    rcases dhStep_cases cmp a bound index (Left index) with h1 | ⟨h1, hb1, _⟩
    · exact Or.inl h1
    · right; rw [h1]; exact ⟨lt_left index, hb1⟩
  · right; rw [h]; exact ⟨lt_right index, hb⟩

/-- `downHeapWithSize` from the source (iterative sift-down bounded by
`heapSize`), for the non-negative indices at which the heap package itself
calls it.  The faithful `Int`-indexed transcription of the loop, including
Go's panic on out-of-range slice accesses, is `downHeapWithSizeZ` below;
the two are related by `downHeapWithSizeZ_eq_ok`. -/
def downHeapWithSize (cmp : α → α → Int) (a : List α) (index bound : Nat) : List α :=
  if h : dhLargest cmp a index bound = index then a
  else
    downHeapWithSize cmp (swap a index (dhLargest cmp a index bound))
      (dhLargest cmp a index bound) bound
termination_by bound - index
decreasing_by
  rcases dhLargest_cases cmp a index bound with h1 | h1
  · exact absurd h1 h
  · omega

/-- `downHeap` from the source: sift down using the current heap size. -/
def downHeap (cmp : α → α → Int) (a : List α) (index : Nat) : List α :=
  downHeapWithSize cmp a index a.length

/-- The error value `ErrorIsEmpty` (`heap is empty`). -/
inductive HeapError where
  | errorIsEmpty : HeapError
deriving DecidableEq, Repr

/-- `Insert` from the source: append the item, then sift the last slot up. -/
def Insert (cmp : α → α → Int) (a : List α) (item : α) : List α :=
  upHeap cmp (a ++ [item]) ((a ++ [item]).length - 1)

/-- `Pop` from the source, returning the Go `(value, error)` pair together
with the post-state of the backing slice.  The `nil` assignment to the
vacated slot (a garbage-collection aid) has no counterpart on values. -/
def Pop (cmp : α → α → Int) (a : List α) : Except HeapError α × List α :=
  match a with
  | [] => (.error .errorIsEmpty, [])
  | top :: rest =>
    let lastIndex := (top :: rest).length - 1
    let a1 := ((top :: rest).set 0 ((top :: rest).getD lastIndex top)).take lastIndex
    (.ok top, if 0 < a1.length then downHeap cmp a1 0 else a1)

/-- `Peek` from the source. -/
def Peek (a : List α) : Except HeapError α :=
  match a with
  | [] => .error .errorIsEmpty
  | top :: _ => .ok top

/-- `Size` from the source. -/
def SizeH (a : List α) : Nat := a.length

/-- `GetItems` from the source: a defensive copy of the backing slice
(copying is the identity on immutable lists). -/
def GetItems (a : List α) : List α := a

/-- `UpHeap` from the source, the public bounds-checked wrapper; the index is
a Go `int`, so it is modelled as `Int`. -/
def UpHeap (cmp : α → α → Int) (a : List α) (index : Int) : List α :=
  if index < 0 ∨ (a.length : Int) ≤ index then a
  else upHeap cmp a index.toNat

/-- Outcome of a Go function that can panic. -/
inductive GoRes (α : Type _) where
  | ok : α → GoRes α
  | crash : GoRes α
deriving DecidableEq, Repr

/-- A Go slice access `items[i]` with an `int` subscript: `none` models the
out-of-range panic. -/
def getZ (a : List α) (i : Int) : Option α :=
  if 0 ≤ i then a[i.toNat]? else none

/-- Go `int` is 64-bit two's-complement, so the arithmetic in `Left` and
`Right` (`2*i + 1`, `2*(i + 1)`) wraps modulo `2^64` into `[-2^63, 2^63)`. -/
def wrap64 (x : Int) : Int := (x + 2 ^ 63) % 2 ^ 64 - 2 ^ 63

/-- One conditional update of `largest` in the `Int`-indexed loop:
`if child < heapSize && cmpFn(items[child], items[largest]) > 0 { largest = child }`;
`none` models the panic raised by an out-of-range access inside the test. -/
def zLargestStep (cmp : α → α → Int) (a : List α) (heapSize child largest : Int) :
    Option Int :=
  if child < heapSize then
    match getZ a child, getZ a largest with
    | some x, some y => if 0 < cmp x y then some child else some largest
    | _, _ => none
  else some largest

/-- Faithful `Int`-indexed transcription of the `downHeapWithSize` loop,
including Go's bounds-check panics (`GoRes.crash`) on the slice accesses
`items[l]`, `items[r]`, `items[largest]`, `items[index]` and in `swap`,
and the 64-bit wraparound of the child-index computations `l = 2*index+1`
and `r = 2*(index+1)` (for `index >= 2^62` these wrap negative, pass the
`l < heapSize` test, and the access panics).  The `Nat` fuel argument only
bounds the number of loop iterations; it is a modelling artefact and
`downHeapWithSizeZ_total` below shows a sufficient supply always exists. -/
def downHeapWithSizeZ (cmp : α → α → Int) (a : List α) (index heapSize : Int) :
    Nat → Option (GoRes (List α))
  | 0 => none
  | fuel + 1 =>
    match zLargestStep cmp a heapSize (wrap64 (2 * index + 1)) index with
    | none => some .crash
    | some largest1 =>
      match zLargestStep cmp a heapSize (wrap64 (2 * (index + 1))) largest1 with
      | none => some .crash
      | some largest =>
        if largest = index then some (.ok a)
        else
          match getZ a index, getZ a largest with
          | some x, some y =>
            downHeapWithSizeZ cmp ((a.set index.toNat y).set largest.toNat x) largest heapSize
              fuel
          | _, _ => some .crash

/-- `DownHeap` from the source: the public wrapper simply calls the sift-down
loop with the current size — it performs no bounds check on `index`. -/
def DownHeap (cmp : α → α → Int) (a : List α) (index : Int) : Option (GoRes (List α)) :=
  downHeapWithSizeZ cmp a index a.length (a.length + 1)

/-- The comparator induces a total preorder: `0 ≤ cmp a b` means `a` may sit
at least as close to the root as `b`; the sign is antisymmetric and the
induced relation is transitive. -/
def IsTotalPreorderCmp (cmp : α → α → Int) : Prop :=
  (∀ a b, 0 ≤ cmp a b ↔ cmp b a ≤ 0) ∧
  (∀ a b c, 0 ≤ cmp a b → 0 ≤ cmp b c → 0 ≤ cmp a c)

/-- The heap property of the backing array: every non-root slot compares at
most its parent, `cmpFn(items[Parent(i)], items[i]) >= 0`. -/
def HeapProp (cmp : α → α → Int) (a : List α) : Prop :=
  ∀ i, i < a.length → 0 < i → 0 ≤ cmpAt cmp a (Parent i) i

instance (cmp : α → α → Int) (a : List α) : Decidable (HeapProp cmp a) :=
  Nat.decidableBallLT a.length fun i _ => 0 < i → 0 ≤ cmpAt cmp a (Parent i) i

theorem cons_set_perm : ∀ (t : List α) (m : Nat) (y x : α), t[m]? = some y →
    List.Perm (y :: t.set m x) (x :: t) := by
  intro t
  induction t with
  | nil => intro m y x h; simp at h
  | cons z t ih =>
    intro m y x h
    match m with
    | 0 =>
      rw [List.getElem?_cons_zero, Option.some_inj] at h
      rw [show (z :: t).set 0 x = x :: t from rfl, h]
      exact List.Perm.swap x y t
    | Nat.succ k =>
      rw [List.getElem?_cons_succ] at h
      refine (List.Perm.swap z y _).trans ?_
      refine ((ih k y x h).cons z).trans ?_
      exact List.Perm.swap x z t

theorem swap_perm : ∀ (a : List α) (i j : Nat), List.Perm (swap a i j) a := by
  intro a
  induction a with
  | nil => intro i j; unfold swap; simp
  | cons z t ih =>
    intro i j
    match i, j with
    | 0, 0 => unfold swap; simp
    | 0, Nat.succ m =>
      unfold swap
      rw [List.getElem?_cons_zero, List.getElem?_cons_succ]
      cases hj : t[m]? with
      | none => exact List.Perm.refl _
      | some y => exact cons_set_perm t m y z hj
    | Nat.succ k, 0 =>
      unfold swap
      rw [List.getElem?_cons_zero, List.getElem?_cons_succ]
      cases hi : t[k]? with
      | none => exact List.Perm.refl _
      | some x => exact cons_set_perm t k x z hi
    | Nat.succ k, Nat.succ m =>
      have : swap (z :: t) (k + 1) (m + 1) = z :: swap t k m := by
        unfold swap
        rw [List.getElem?_cons_succ, List.getElem?_cons_succ]
        cases hi : t[k]? with
        | none => rfl
        | some x => cases hj : t[m]? with
          | none => rfl
          | some y => simp [List.set_cons_succ]
      rw [this]
      exact (ih k m).cons z

theorem swap_getElem?_ne (a : List α) {i j k : Nat} (hki : k ≠ i) (hkj : k ≠ j) :
    (swap a i j)[k]? = a[k]? := by
  unfold swap
  cases hi : a[i]? with
  | none => rfl
  | some x => cases hj : a[j]? with
    | none => rfl
    | some y =>
      rw [List.getElem?_set_ne (Ne.symm hkj), List.getElem?_set_ne (Ne.symm hki)]

theorem upHeap_length (cmp : α → α → Int) (a : List α) (index : Nat) :
    (upHeap cmp a index).length = a.length := by
  induction a, index using upHeap.induct cmp with
  | case1 a => rw [upHeap]; simp
  | case2 a index h1 h2 => rw [upHeap]; simp [h1, h2]
  | case3 a index h1 h2 ih =>
    rw [upHeap]
    simp only [h1, h2, dite_false, if_false]
    rw [ih, swap_length]

theorem upHeap_perm (cmp : α → α → Int) (a : List α) (index : Nat) :
    List.Perm (upHeap cmp a index) a := by
  induction a, index using upHeap.induct cmp with
  | case1 a => rw [upHeap]; simp
  | case2 a index h1 h2 => rw [upHeap]; simp [h1, h2]
  | case3 a index h1 h2 ih =>
    rw [upHeap]
    simp only [h1, h2, dite_false, if_false]
    exact ih.trans (swap_perm a (Parent index) index)

theorem downHeapWithSize_length (cmp : α → α → Int) (a : List α) (index bound : Nat) :
    (downHeapWithSize cmp a index bound).length = a.length := by
  induction a, index, bound using downHeapWithSize.induct cmp with
  | case1 a index bound h => rw [downHeapWithSize]; simp [h]
  | case2 a index bound h ih =>
    rw [downHeapWithSize]
    simp only [h, dite_false]
    rw [ih, swap_length]

theorem downHeapWithSize_perm (cmp : α → α → Int) (a : List α) (index bound : Nat) :
    List.Perm (downHeapWithSize cmp a index bound) a := by
  induction a, index, bound using downHeapWithSize.induct cmp with
  | case1 a index bound h => rw [downHeapWithSize]; simp [h]
  | case2 a index bound h ih =>
    rw [downHeapWithSize]
    simp only [h, dite_false]
    exact ih.trans (swap_perm a index (dhLargest cmp a index bound))

/-- Slots at or beyond `bound` are never touched by the bounded sift-down. -/
theorem downHeapWithSize_untouched (cmp : α → α → Int) (a : List α) (index bound : Nat) :
    ∀ j, bound ≤ j → (downHeapWithSize cmp a index bound)[j]? = a[j]? := by
  induction a, index, bound using downHeapWithSize.induct cmp with
  | case1 a index bound h => intro j hj; rw [downHeapWithSize]; simp [h]
  | case2 a index bound h ih =>
    intro j hj
    rcases dhLargest_cases cmp a index bound with h1 | ⟨h1, h2⟩
    · exact absurd h1 h
    · rw [downHeapWithSize]
      simp only [h, dite_false]
      rw [ih j hj, swap_getElem?_ne a (by omega) (by omega)]

theorem swId_left (i j : Nat) : swId i j i = j := by
  unfold swId; simp

theorem swId_right {i j : Nat} (h : j ≠ i) : swId i j j = i := by
  unfold swId; simp [h]

theorem swId_other {i j k : Nat} (h1 : k ≠ i) (h2 : k ≠ j) : swId i j k = k := by
  unfold swId; simp [h1, h2]

theorem cmpAt_trans {cmp : α → α → Int} (hc : IsTotalPreorderCmp cmp) {a : List α}
    {i j k : Nat} (hi : i < a.length) (hj : j < a.length) (hk : k < a.length)
    (h1 : 0 ≤ cmpAt cmp a i j) (h2 : 0 ≤ cmpAt cmp a j k) : 0 ≤ cmpAt cmp a i k := by
  rw [cmpAt_eq cmp a hi hj] at h1
  rw [cmpAt_eq cmp a hj hk] at h2
  rw [cmpAt_eq cmp a hi hk]
  exact hc.2 _ _ _ h1 h2

theorem cmpAt_not_le {cmp : α → α → Int} (hc : IsTotalPreorderCmp cmp) {a : List α}
    {i j : Nat} (hi : i < a.length) (hj : j < a.length)
    (h : ¬ 0 ≤ cmpAt cmp a i j) : 0 ≤ cmpAt cmp a j i := by
  rw [cmpAt_eq cmp a hi hj] at h
  rw [cmpAt_eq cmp a hj hi]
  have := hc.1 a[j] a[i]
  omega

theorem cmpAt_flip {cmp : α → α → Int} (hc : IsTotalPreorderCmp cmp) {a : List α}
    {i j : Nat} (hi : i < a.length) (hj : j < a.length)
    (h : ¬ 0 < cmpAt cmp a i j) : 0 ≤ cmpAt cmp a j i := by
  rw [cmpAt_eq cmp a hi hj] at h
  rw [cmpAt_eq cmp a hj hi]
  have := hc.1 a[j] a[i]
  omega

theorem cmpAt_refl {cmp : α → α → Int} (hc : IsTotalPreorderCmp cmp) {a : List α}
    {i : Nat} (hi : i < a.length) : 0 ≤ cmpAt cmp a i i := by
  rw [cmpAt_eq cmp a hi hi]
  have := hc.1 a[i] a[i]
  omega

/-- Sift-up restores the heap property: if every parent/child edge holds
except possibly the one above slot `i`, and the element above `i` also
dominates `i`'s children, then `upHeap` from `i` yields a heap. -/
theorem upHeap_restores {cmp : α → α → Int} (hc : IsTotalPreorderCmp cmp) :
    ∀ (a : List α) (i : Nat), i < a.length →
    (∀ j, 0 < j → j < a.length → j ≠ i → 0 ≤ cmpAt cmp a (Parent j) j) →
    (∀ c, c < a.length → Parent c = i → 0 < i → 0 ≤ cmpAt cmp a (Parent i) c) →
    HeapProp cmp (upHeap cmp a i) := by
  intro a i
  induction a, i using upHeap.induct cmp with
  | case1 a =>
    intro _ c1 _
    rw [upHeap]
    simp only [dite_true]
    intro j hjlen hj0
    exact c1 j hj0 hjlen (by omega)
  | case2 a index h1 h2 =>
    intro _ c1 _
    rw [upHeap]
    simp only [h1, h2, dite_false, if_true]
    intro j hjlen hj0
    by_cases hji : j = index
    · subst hji; exact h2
    · exact c1 j hj0 hjlen hji
  | case3 a index h1 h2 ih =>
    intro hlen c1 c2
    have hpos : 0 < index := Nat.pos_of_ne_zero h1
    have hp : Parent index < a.length := (parent_lt hpos).trans hlen
    have hpi : Parent index < index := parent_lt hpos
    rw [upHeap]
    simp only [h1, h2, dite_false, if_false]
    apply ih
    · rw [swap_length]; exact hp
    · -- all edges except the one above the parent slot hold after the swap
      intro j hj0 hjlen hjp
      rw [swap_length] at hjlen
      rw [swap_cmpAt cmp a hp hlen]
      by_cases hji : j = index
      · subst hji
        rw [swId_left, swId_right (by omega)]
        exact cmpAt_not_le hc hp hlen h2
      · rw [show swId (Parent index) index j = j from swId_other hjp hji]
        by_cases hPp : Parent j = Parent index
        · rw [hPp, swId_left]
          have e1 : 0 ≤ cmpAt cmp a index (Parent index) := cmpAt_not_le hc hp hlen h2
          have e2 : 0 ≤ cmpAt cmp a (Parent j) j := c1 j hj0 hjlen hji
          rw [hPp] at e2
          exact cmpAt_trans hc hlen hp hjlen e1 e2
        · by_cases hPi : Parent j = index
          · rw [hPi, swId_right (by omega)]
            exact c2 j hjlen hPi hpos
          · rw [swId_other hPp hPi]
            exact c1 j hj0 hjlen hji
    · -- the grandparent dominates the children of the parent slot
      intro c hclen hcP hP0
      rw [swap_length] at hclen
      have hg : Parent (Parent index) < Parent index := parent_lt hP0
      rw [swap_cmpAt cmp a hp hlen]
      rw [show swId (Parent index) index (Parent (Parent index)) =
            Parent (Parent index) from swId_other (by omega) (by omega)]
      have egp : 0 ≤ cmpAt cmp a (Parent (Parent index)) (Parent index) :=
        c1 (Parent index) hP0 hp (Nat.ne_of_lt hpi)
      by_cases hci : c = index
      · subst hci
        rw [swId_right (by omega)]
        exact egp
      · have hc0 : 0 < c := by
          rcases Nat.eq_zero_or_pos c with h0 | h0
          · subst h0; rw [show Parent 0 = 0 from rfl] at hcP; omega
          · exact h0
        have hcgt : Parent index < c := hcP ▸ parent_lt hc0
        rw [swId_other (by omega) hci]
        have ec : 0 ≤ cmpAt cmp a (Parent c) c := c1 c hc0 hclen hci
        rw [hcP] at ec
        exact cmpAt_trans hc ((parent_lt hP0).trans hp) hp hclen egp ec

theorem left_lt_right (i : Nat) : Left i < Right i := by
  unfold Left Right; omega

theorem dhStep_eq_self {cmp : α → α → Int} {a : List α} {bound largest child : Nat}
    (hne : child ≠ largest) (h : dhStep cmp a bound largest child = largest) :
    ¬ (child < bound ∧ 0 < cmpAt cmp a child largest) := by
  intro hg
  unfold dhStep at h
  rw [if_pos hg] at h
  exact hne h

/-- When the sift-down loop stops (`largest == index`), neither in-bounds
child beats the current slot. -/
theorem dhLargest_eq_index {cmp : α → α → Int} {a : List α} {i bound : Nat}
    (h : dhLargest cmp a i bound = i) :
    (Left i < bound → ¬ 0 < cmpAt cmp a (Left i) i) ∧
    (Right i < bound → ¬ 0 < cmpAt cmp a (Right i) i) := by
  rcases dhStep_cases cmp a bound i (Left i) with h1 | ⟨h1, hbL, hcL⟩
  · have e : dhLargest cmp a i bound = dhStep cmp a bound i (Right i) := by
      unfold dhLargest; rw [h1]
    have h2 : dhStep cmp a bound i (Right i) = i := e.symm.trans h
    have g1 := dhStep_eq_self (Nat.ne_of_gt (lt_left i)) h1
    have g2 := dhStep_eq_self (Nat.ne_of_gt (lt_right i)) h2
    exact ⟨fun hl hcmp => g1 ⟨hl, hcmp⟩, fun hr hcmp => g2 ⟨hr, hcmp⟩⟩
  · have e : dhLargest cmp a i bound = dhStep cmp a bound (Left i) (Right i) := by
      unfold dhLargest; rw [h1]
    rcases dhStep_cases cmp a bound (Left i) (Right i) with h2 | ⟨h2, _, _⟩
    · rw [e, h2] at h; have := lt_left i; omega
    · rw [e, h2] at h; have := lt_right i; omega

/-- When the sift-down loop swaps, the winner is a child of `index`, it
dominates `index`, and it dominates the in-bounds sibling as well. -/
theorem dhLargest_facts {cmp : α → α → Int} (hc : IsTotalPreorderCmp cmp)
    {a : List α} {i bound : Nat} (hbl : bound ≤ a.length)
    (h : ¬ dhLargest cmp a i bound = i) :
    (dhLargest cmp a i bound = Left i ∨ dhLargest cmp a i bound = Right i) ∧
    0 ≤ cmpAt cmp a (dhLargest cmp a i bound) i ∧
    (∀ j, (j = Left i ∨ j = Right i) → j < bound → j ≠ dhLargest cmp a i bound →
      0 ≤ cmpAt cmp a (dhLargest cmp a i bound) j) := by
  rcases dhStep_cases cmp a bound i (Left i) with h1 | ⟨h1, hbL, hcL⟩
  · have e : dhLargest cmp a i bound = dhStep cmp a bound i (Right i) := by
      unfold dhLargest; rw [h1]
    rcases dhStep_cases cmp a bound i (Right i) with h2 | ⟨h2, hbR, hcR⟩
    · exact absurd (e.trans h2) h
    · have em : dhLargest cmp a i bound = Right i := e.trans h2
      have hib : i < bound := (lt_right i).trans hbR
      have hiL : i < a.length := hib.trans_le hbl
      have hrL : Right i < a.length := hbR.trans_le hbl
      refine ⟨Or.inr em, ?_, ?_⟩
      · rw [em]; exact le_of_lt hcR
      · intro j hj hjb hjm
        rw [em] at hjm ⊢
        rcases hj with rfl | rfl
        · have hng := dhStep_eq_self (Nat.ne_of_gt (lt_left i)) h1
          have hnlt : ¬ 0 < cmpAt cmp a (Left i) i := fun hgt => hng ⟨hjb, hgt⟩
          have e1 : 0 ≤ cmpAt cmp a i (Left i) :=
            cmpAt_flip hc (hjb.trans_le hbl) hiL hnlt
          exact cmpAt_trans hc hrL hiL (hjb.trans_le hbl) (le_of_lt hcR) e1
        · exact absurd rfl hjm
  · have e : dhLargest cmp a i bound = dhStep cmp a bound (Left i) (Right i) := by
      unfold dhLargest; rw [h1]
    have hib : i < bound := (lt_left i).trans hbL
    have hiL : i < a.length := hib.trans_le hbl
    have hlL : Left i < a.length := hbL.trans_le hbl
    rcases dhStep_cases cmp a bound (Left i) (Right i) with h2 | ⟨h2, hbR, hcR⟩
    · have em : dhLargest cmp a i bound = Left i := e.trans h2
      refine ⟨Or.inl em, ?_, ?_⟩
      · rw [em]; exact le_of_lt hcL
      · intro j hj hjb hjm
        rw [em] at hjm ⊢
        rcases hj with rfl | rfl
        · exact absurd rfl hjm
        · have hng := dhStep_eq_self (Nat.ne_of_gt (left_lt_right i)) h2
          have hnlt : ¬ 0 < cmpAt cmp a (Right i) (Left i) := fun hgt => hng ⟨hjb, hgt⟩
          exact cmpAt_flip hc (hjb.trans_le hbl) hlL hnlt
    · have em : dhLargest cmp a i bound = Right i := e.trans h2
      have hrL : Right i < a.length := hbR.trans_le hbl
      refine ⟨Or.inr em, ?_, ?_⟩
      · rw [em]
        exact cmpAt_trans hc hrL hlL hiL (le_of_lt hcR) (le_of_lt hcL)
      · intro j hj hjb hjm
        rw [em] at hjm ⊢
        rcases hj with rfl | rfl
        · exact le_of_lt hcR
        · exact absurd rfl hjm

/-- Sift-down restores the heap property on the region of edges whose parent
index is at least `k`: if all such edges hold except those leaving slot `i`,
and (when applicable) the slot above `i` dominates `i`'s children, then
after `downHeapWithSize` all such edges hold. -/
theorem downHeapWithSize_restores {cmp : α → α → Int} (hc : IsTotalPreorderCmp cmp)
    (k : Nat) : ∀ (a : List α) (i bound : Nat), bound ≤ a.length → k ≤ i →
    (∀ j, 0 < j → j < bound → k ≤ Parent j → Parent j ≠ i →
      0 ≤ cmpAt cmp a (Parent j) j) →
    (0 < i → k ≤ Parent i → ∀ c, c < bound → Parent c = i →
      0 ≤ cmpAt cmp a (Parent i) c) →
    ∀ j, 0 < j → j < bound → k ≤ Parent j →
      0 ≤ cmpAt cmp (downHeapWithSize cmp a i bound) (Parent j) j := by
  intro a i bound
  induction a, i, bound using downHeapWithSize.induct cmp with
  | case1 a i bound hL =>
    intro hbl hki c1 c2 j hj0 hjb hkP
    rw [downHeapWithSize]
    simp only [hL, dite_true]
    by_cases hPi : Parent j = i
    · have hfacts := dhLargest_eq_index hL
      rw [hPi]
      rcases child_cases hj0 hPi with hjc | hjc
      · subst hjc
        have hib : i < bound := (lt_left i).trans hjb
        exact cmpAt_flip hc (hjb.trans_le hbl) (hib.trans_le hbl) fun hgt =>
          hfacts.1 hjb hgt
      · subst hjc
        have hib : i < bound := (lt_right i).trans hjb
        exact cmpAt_flip hc (hjb.trans_le hbl) (hib.trans_le hbl) fun hgt =>
          hfacts.2 hjb hgt
    · exact c1 j hj0 hjb hkP hPi
  | case2 a i bound hL ih =>
    intro hbl hki c1 c2 j hj0 hjb hkP
    have hfacts := dhLargest_facts hc hbl hL
    rcases dhLargest_cases cmp a i bound with h1 | ⟨him, hmb⟩
    · exact absurd h1 hL
    · have hPm : Parent (dhLargest cmp a i bound) = i := by
        rcases hfacts.1 with hm | hm
        · rw [hm, parent_left]
        · rw [hm, parent_right]
      have hiL : i < a.length := (him.trans hmb).trans_le hbl
      have hmL : dhLargest cmp a i bound < a.length := hmb.trans_le hbl
      rw [downHeapWithSize]
      simp only [hL, dite_false]
      refine ih ?_ ?_ ?_ ?_ j hj0 hjb hkP
      · rw [swap_length]; exact hbl
      · omega
      · intro j' hj'0 hj'b hkP' hP'm
        rw [swap_cmpAt cmp a hiL hmL]
        by_cases hj'i : j' = i
        · subst hj'i
          have hPlt : Parent j' < j' := parent_lt hj'0
          rw [swId_other (Nat.ne_of_lt hPlt) (by omega), swId_left]
          exact c2 hj'0 hkP' (dhLargest cmp a j' bound) hmb hPm
        · by_cases hj'm : j' = dhLargest cmp a i bound
          · subst hj'm
            rw [hPm, swId_left, swId_right (by omega)]
            exact hfacts.2.1
          · rw [show swId i (dhLargest cmp a i bound) j' = j' from
              swId_other hj'i hj'm]
            by_cases hP'i : Parent j' = i
            · rw [hP'i, swId_left]
              exact hfacts.2.2 j' (child_cases hj'0 hP'i) hj'b hj'm
            · rw [swId_other hP'i hP'm]
              exact c1 j' hj'0 hj'b hkP' hP'i
      · intro hm0 hkPm c hcb hcPm
        have hc0 : 0 < c := by
          rcases Nat.eq_zero_or_pos c with h0 | h0
          · subst h0; rw [show Parent 0 = 0 from rfl] at hcPm; omega
          · exact h0
        have hmc : dhLargest cmp a i bound < c := hcPm ▸ parent_lt hc0
        rw [hPm, swap_cmpAt cmp a hiL hmL, swId_left,
          swId_other (by omega) (by omega)]
        have := c1 c hc0 hcb (by omega) (by omega)
        rw [hcPm] at this
        exact this

theorem cmpAt_congr (cmp : α → α → Int) {a b : List α} {i j : Nat}
    (h1 : a[i]? = b[i]?) (h2 : a[j]? = b[j]?) : cmpAt cmp a i j = cmpAt cmp b i j := by
  unfold cmpAt
  rw [h1, h2]

theorem cmpAt_append (cmp : α → α → Int) (a b : List α) {i j : Nat}
    (hi : i < a.length) (hj : j < a.length) :
    cmpAt cmp (a ++ b) i j = cmpAt cmp a i j := by
  apply cmpAt_congr <;> rw [List.getElem?_append] <;> simp [hi, hj]

theorem heapProp_nil (cmp : α → α → Int) : HeapProp cmp ([] : List α) := by
  intro i hi
  simp at hi

/-- `Insert` preserves the heap property. -/
theorem Insert_heapProp {cmp : α → α → Int} (hc : IsTotalPreorderCmp cmp)
    (a : List α) (x : α) (h : HeapProp cmp a) : HeapProp cmp (Insert cmp a x) := by
  unfold Insert
  have hlen : (a ++ [x]).length = a.length + 1 := by simp
  rw [hlen]
  simp only [Nat.add_sub_cancel]
  apply upHeap_restores hc
  · omega
  · intro j hj0 hjlen hji
    rw [hlen] at hjlen
    have hjlt : j < a.length := by omega
    have hplt : Parent j < a.length := (parent_lt hj0).trans hjlt
    rw [cmpAt_append cmp a [x] hplt hjlt]
    exact h j hjlt hj0
  · intro c hclen hcP h0
    rw [hlen] at hclen
    have : Parent c < c := by
      rcases Nat.eq_zero_or_pos c with h0' | h0'
      · subst h0'; rw [show Parent 0 = 0 from rfl] at hcP; omega
      · exact parent_lt h0'
    omega

/-- The internal `upHeap` is a no-op on a valid heap. -/
theorem upHeap_noop {cmp : α → α → Int} {a : List α} (h : HeapProp cmp a)
    (t : Nat) (ht : t < a.length) : upHeap cmp a t = a := by
  rw [upHeap]
  rcases Nat.eq_zero_or_pos t with h0 | h0
  · simp [h0]
  · rw [dif_neg (by omega), if_pos (h t ht h0)]

/-- The public `UpHeap` never changes a valid heap: out-of-range indices are
rejected by the bounds check and in-range slots already satisfy the stop
condition. -/
theorem UpHeap_noop {cmp : α → α → Int} {a : List α} (h : HeapProp cmp a)
    (index : Int) : UpHeap cmp a index = a := by
  unfold UpHeap
  split
  · rfl
  · next hn =>
    apply upHeap_noop h
    omega

theorem dhStep_noop {cmp : α → α → Int} (hc : IsTotalPreorderCmp cmp)
    {a : List α} (h : HeapProp cmp a) {t c : Nat} (hPc : Parent c = t)
    (hc0 : 0 < c) : dhStep cmp a a.length t c = t := by
  unfold dhStep
  rw [if_neg]
  rintro ⟨hcb, hgt⟩
  have hle : 0 ≤ cmpAt cmp a t c := hPc ▸ h c hcb hc0
  have htl : t < a.length := by
    have := hPc ▸ parent_lt hc0
    omega
  rw [cmpAt_eq cmp a htl hcb] at hle
  rw [cmpAt_eq cmp a hcb htl] at hgt
  have := hc.1 a[t] a[c]
  omega

theorem dhLargest_of_heapProp {cmp : α → α → Int} (hc : IsTotalPreorderCmp cmp)
    {a : List α} (h : HeapProp cmp a) (t : Nat) : dhLargest cmp a t a.length = t := by
  unfold dhLargest
  rw [dhStep_noop hc h (parent_left t) (by unfold Left; omega),
    dhStep_noop hc h (parent_right t) (by unfold Right; omega)]

/-- The internal `downHeap` (full-size sift-down) is a no-op on a valid heap. -/
theorem downHeap_noop {cmp : α → α → Int} (hc : IsTotalPreorderCmp cmp)
    {a : List α} (h : HeapProp cmp a) (t : Nat) :
    downHeapWithSize cmp a t a.length = a := by
  rw [downHeapWithSize, dif_pos (dhLargest_of_heapProp hc h t)]

/-- `Pop` preserves the heap property. -/
theorem Pop_heapProp {cmp : α → α → Int} (hc : IsTotalPreorderCmp cmp)
    (a : List α) (h : HeapProp cmp a) : HeapProp cmp (Pop cmp a).2 := by
  match a with
  | [] => exact heapProp_nil cmp
  | top :: rest =>
    rw [Pop]
    simp only
    set y := (top :: rest).getD ((top :: rest).length - 1) top with hy
    set a1 := ((top :: rest).set 0 y).take ((top :: rest).length - 1) with ha1
    have hlen1 : a1.length = rest.length := by
      rw [ha1]
      simp
    have ha1get : ∀ m, 0 < m → m < rest.length → a1[m]? = (top :: rest)[m]? := by
      intro m hm0 hmr
      rw [ha1, List.getElem?_take, if_pos (by simpa using hmr),
        List.getElem?_set_ne (by omega)]
    by_cases hpos : 0 < a1.length
    · rw [if_pos hpos]
      unfold downHeap
      intro i hi hi0
      rw [downHeapWithSize_length] at hi
      apply downHeapWithSize_restores hc 0 a1 0 a1.length (le_refl _) (Nat.zero_le _)
      · intro j hj0 hjb hkP hPne
        have hplt : Parent j < j := parent_lt hj0
        rw [hlen1] at hjb
        rw [cmpAt_congr cmp (ha1get (Parent j) (Nat.pos_of_ne_zero hPne) (by omega))
          (ha1get j hj0 hjb)]
        exact h j (by simp; omega) hj0
      · intro h0
        exact absurd h0 (lt_irrefl 0)
      · exact hi0
      · exact hi
      · exact Nat.zero_le _
    · rw [if_neg hpos]
      intro i hi hi0
      omega

theorem getZ_nat (a : List α) (n : Nat) : getZ a ((n : Nat) : Int) = a[n]? := by
  unfold getZ
  rw [if_pos (Int.natCast_nonneg n)]
  simp

theorem swap_eq_set (a : List α) {i j : Nat} (hi : i < a.length) (hj : j < a.length) :
    swap a i j = (a.set i a[j]).set j a[i] := by
  unfold swap
  rw [List.getElem?_eq_getElem hi, List.getElem?_eq_getElem hj]

theorem wrap64_lb (x : Int) : -2 ^ 63 ≤ wrap64 x := by
  unfold wrap64
  have := Int.emod_nonneg (x + 2 ^ 63) (by norm_num : (2 : Int) ^ 64 ≠ 0)
  omega

theorem wrap64_ub (x : Int) : wrap64 x < 2 ^ 63 := by
  unfold wrap64
  have := Int.emod_lt_of_pos (x + 2 ^ 63) (by norm_num : (0 : Int) < 2 ^ 64)
  omega

/-- Values already in the `int64` range are unchanged by the wraparound. -/
theorem wrap64_id {x : Int} (h1 : -2 ^ 63 ≤ x) (h2 : x < 2 ^ 63) : wrap64 x = x := by
  unfold wrap64
  rw [Int.emod_eq_of_lt (by omega) (by omega)]
  omega

/-- One overflow step: values in `[2^63, 3*2^63)` wrap to `x - 2^64`. -/
theorem wrap64_sub {x : Int} (h1 : 2 ^ 63 ≤ x) (h2 : x < 3 * 2 ^ 63) :
    wrap64 x = x - 2 ^ 64 := by
  unfold wrap64
  rw [show x + 2 ^ 63 = (x - 2 ^ 63) + 1 * 2 ^ 64 from by ring,
    Int.add_mul_emod_self, Int.emod_eq_of_lt (by omega) (by omega)]
  omega

theorem getZ_some {a : List α} {c : Int} {x : α} (h : getZ a c = some x) :
    0 ≤ c ∧ c.toNat < a.length ∧ a[c.toNat]? = some x := by
  unfold getZ at h
  by_cases h0 : 0 ≤ c
  · rw [if_pos h0] at h
    have hlt : c.toNat < a.length := by
      by_contra hn
      rw [List.getElem?_eq_none (by omega)] at h
      exact absurd h (by simp)
    exact ⟨h0, hlt, h⟩
  · rw [if_neg h0] at h
    exact absurd h (by simp)

theorem getZ_getElem {a : List α} {c : Int} {x : α} (h : getZ a c = some x)
    (hb : c.toNat < a.length) : a[c.toNat] = x := by
  have h2 := (getZ_some h).2.2
  rw [List.getElem?_eq_getElem hb] at h2
  exact Option.some_inj.mp h2

/-- What a successful `largest`-update step can return: either the previous
`largest`, or the child, and in the latter case the guard really passed. -/
theorem zLargestStep_some (cmp : α → α → Int) (a : List α) {hs child largest res : Int}
    (h : zLargestStep cmp a hs child largest = some res) :
    res = largest ∨
      (res = child ∧ child < hs ∧ ∃ x y, getZ a child = some x ∧
        getZ a largest = some y ∧ 0 < cmp x y) := by
  unfold zLargestStep at h
  by_cases hch : child < hs
  · rw [if_pos hch] at h
    rcases hx : getZ a child with _ | x <;> rw [hx] at h
    · rcases hy : getZ a largest with _ | y <;> rw [hy] at h <;>
        simp only [] at h <;> exact absurd h (by simp)
    · rcases hy : getZ a largest with _ | y <;> rw [hy] at h
      · simp only [] at h
        exact absurd h (by simp)
      · simp only [] at h
        by_cases hcmp : 0 < cmp x y
        · rw [if_pos hcmp, Option.some_inj] at h
          exact Or.inr ⟨h.symm, hch, x, y, rfl, rfl, hcmp⟩
        · rw [if_neg hcmp, Option.some_inj] at h
          exact Or.inl h.symm

  · rw [if_neg hch, Option.some_inj] at h
    exact Or.inl h.symm

/-- One iteration of the `Int`-indexed sift-down loop either settles the
call — a panic, or a normal return of the unchanged array — or swaps the
current slot with a strictly dominating valid child and recurses.  In the
swap case both slots are valid, the new index is one of the two wrapped
child indices, some wrapped child passed the comparator guard against the
current slot, and the first `largest`-update step succeeded. -/
theorem downHeapWithSizeZ_succ_cases (cmp : α → α → Int) (a : List α) (i hs : Int)
    (fuel : Nat) :
    downHeapWithSizeZ cmp a i hs (fuel + 1) = some .crash ∨
    downHeapWithSizeZ cmp a i hs (fuel + 1) = some (.ok a) ∨
    ∃ largest xi y c xc l1,
      largest ≠ i ∧ 0 ≤ largest ∧
      (largest = wrap64 (2 * i + 1) ∨ largest = wrap64 (2 * (i + 1))) ∧
      getZ a i = some xi ∧ getZ a largest = some y ∧
      (c = wrap64 (2 * i + 1) ∨ c = wrap64 (2 * (i + 1))) ∧ c < hs ∧
      getZ a c = some xc ∧ 0 < cmp xc xi ∧
      zLargestStep cmp a hs (wrap64 (2 * i + 1)) i = some l1 ∧
      downHeapWithSizeZ cmp a i hs (fuel + 1) =
        downHeapWithSizeZ cmp ((a.set i.toNat y).set largest.toNat xi) largest hs fuel := by
  rw [downHeapWithSizeZ]
  rcases h1 : zLargestStep cmp a hs (wrap64 (2 * i + 1)) i with _ | l1
  · exact Or.inl rfl
  · simp only []
    rcases h2 : zLargestStep cmp a hs (wrap64 (2 * (i + 1))) l1 with _ | largest
    · exact Or.inl rfl
    · simp only []
      by_cases hli : largest = i
      · rw [if_pos hli]
        exact Or.inr (Or.inl rfl)
      · rw [if_neg hli]
        rcases hgi : getZ a i with _ | xi <;>
          rcases hgy : getZ a largest with _ | y <;> simp only []
        · exact Or.inl trivial
        · exact Or.inl trivial
        · exact Or.inl trivial
        · refine Or.inr (Or.inr ?_)
          have hl0 : 0 ≤ largest := (getZ_some hgy).1
          rcases zLargestStep_some cmp a h1 with hz1 | ⟨hz1, hwlh, xw, yw, hgw, hgw2, hcw⟩
          · rcases zLargestStep_some cmp a h2 with hz2 |
              ⟨hz2, hwrh, xr, yr, hgr, hgr2, hcr⟩
            · exact absurd (hz2.trans hz1) hli
            · rw [hz1, hgi, Option.some_inj] at hgr2
              refine ⟨largest, xi, y, wrap64 (2 * (i + 1)), xr, l1, hli, hl0,
                Or.inr hz2, rfl, hgy, Or.inr rfl, hwrh, hgr, ?_, rfl, rfl⟩
              rw [hgr2]
              exact hcr
          · rw [hgi, Option.some_inj] at hgw2
            have hlmem : largest = wrap64 (2 * i + 1) ∨ largest = wrap64 (2 * (i + 1)) := by
              rcases zLargestStep_some cmp a h2 with hz2 | ⟨hz2, _⟩
              · exact Or.inl (hz2.trans hz1)
              · exact Or.inr hz2
            refine ⟨largest, xi, y, wrap64 (2 * i + 1), xw, l1, hli, hl0, hlmem,
              rfl, hgy, Or.inl rfl, hwlh, hgw, ?_, rfl, rfl⟩
            rw [hgw2]
            exact hcw

theorem zLargestStep_eq (cmp : α → α → Int) (a : List α) {bound cN largestN : Nat}
    (hbl : bound ≤ a.length) (hlc : largestN < cN) :
    zLargestStep cmp a (bound : Int) (cN : Int) (largestN : Int) =
      some ((dhStep cmp a bound largestN cN : Nat) : Int) := by
  unfold zLargestStep
  by_cases hcb : cN < bound
  · rw [if_pos (by exact_mod_cast hcb)]
    have hcl : cN < a.length := lt_of_lt_of_le hcb hbl
    have hll : largestN < a.length := lt_trans hlc hcl
    rw [getZ_nat, getZ_nat, List.getElem?_eq_getElem hcl, List.getElem?_eq_getElem hll]
    unfold dhStep
    by_cases hcmp : 0 < cmp a[cN] a[largestN]
    · rw [if_pos ⟨hcb, by rw [cmpAt_eq cmp a hcl hll]; exact hcmp⟩]
      simp [hcmp]
    · rw [if_neg (by rintro ⟨_, hg⟩; rw [cmpAt_eq cmp a hcl hll] at hg; exact hcmp hg)]
      simp [hcmp]
  · rw [if_neg (by exact_mod_cast hcb)]
    unfold dhStep
    rw [if_neg (by rintro ⟨hg, _⟩; exact hcb hg)]

theorem dhStep_lt (cmp : α → α → Int) (a : List α) {bound largest child c2 : Nat}
    (h1 : largest < c2) (h2 : child < c2) :
    dhStep cmp a bound largest child < c2 := by
  rcases dhStep_cases cmp a bound largest child with h | ⟨h, _, _⟩ <;> omega

/-- With fuel exceeding `bound - index`, the `Int`-indexed loop at a
non-negative index in the region where the child computations stay inside
`int64` (every visited index at most `2^62 - 2`, so `2*i + 1` and
`2*(i + 1)` do not wrap) returns exactly the `Nat`-indexed sift-down: in
particular it terminates and never panics. -/
theorem downHeapWithSizeZ_eq_ok (cmp : α → α → Int) :
    ∀ (a : List α) (i bound : Nat), bound ≤ a.length →
    i ≤ 2 ^ 62 - 2 → bound ≤ 2 ^ 62 - 1 →
    ∀ fuel, bound - i < fuel →
    downHeapWithSizeZ cmp a (i : Int) (bound : Int) fuel =
      some (.ok (downHeapWithSize cmp a i bound)) := by
  intro a i bound
  induction a, i, bound using downHeapWithSize.induct cmp with
  | case1 a i bound hL =>
    intro hbl hi62 hb62 fuel hfuel
    obtain ⟨f, rfl⟩ : ∃ f, fuel = f + 1 := ⟨fuel - 1, by omega⟩
    rw [downHeapWithSizeZ]
    rw [show wrap64 (2 * (i : Int) + 1) = ((Left i : Nat) : Int) by
      rw [wrap64_id (by omega) (by omega)]; unfold Left; push_cast; ring]
    rw [show wrap64 (2 * ((i : Int) + 1)) = ((Right i : Nat) : Int) by
      rw [wrap64_id (by omega) (by omega)]; unfold Right; push_cast; ring]
    rw [zLargestStep_eq cmp a hbl (lt_left i)]
    simp only []
    rw [zLargestStep_eq cmp a hbl (dhStep_lt cmp a (lt_right i) (left_lt_right i))]
    simp only []
    have hdl : dhStep cmp a bound (dhStep cmp a bound i (Left i)) (Right i) =
        dhLargest cmp a i bound := rfl
    rw [hdl, hL, if_pos rfl, downHeapWithSize, dif_pos hL]
  | case2 a i bound hL ih =>
    intro hbl hi62 hb62 fuel hfuel
    obtain ⟨f, rfl⟩ : ∃ f, fuel = f + 1 := ⟨fuel - 1, by omega⟩
    rcases dhLargest_cases cmp a i bound with h1 | ⟨him, hmb⟩
    · exact absurd h1 hL
    · have hiL : i < a.length := (him.trans hmb).trans_le hbl
      have hmL : dhLargest cmp a i bound < a.length := hmb.trans_le hbl
      rw [downHeapWithSizeZ]
      rw [show wrap64 (2 * (i : Int) + 1) = ((Left i : Nat) : Int) by
        rw [wrap64_id (by omega) (by omega)]; unfold Left; push_cast; ring]
      rw [show wrap64 (2 * ((i : Int) + 1)) = ((Right i : Nat) : Int) by
        rw [wrap64_id (by omega) (by omega)]; unfold Right; push_cast; ring]
      rw [zLargestStep_eq cmp a hbl (lt_left i)]
      simp only []
      rw [zLargestStep_eq cmp a hbl (dhStep_lt cmp a (lt_right i) (left_lt_right i))]
      simp only []
      have hdl : dhStep cmp a bound (dhStep cmp a bound i (Left i)) (Right i) =
          dhLargest cmp a i bound := rfl
      rw [hdl, if_neg (by exact_mod_cast hL)]
      rw [getZ_nat, getZ_nat, List.getElem?_eq_getElem hiL, List.getElem?_eq_getElem hmL]
      simp only [Int.toNat_natCast]
      rw [← swap_eq_set a hiL hmL]
      rw [ih (by rw [swap_length]; exact hbl) (by omega) hb62 f (by omega)]
      conv_rhs => rw [downHeapWithSize]
      rw [dif_neg hL]

/-- A negative index no deeper than `-2^62` makes the loop panic on its very
first child access: `l = 2*index+1` stays in `int64` and is negative, yet
passes the `l < heapSize` test whenever `heapSize` is non-negative, so
`items[l]` is evaluated and panics.  (For `index < -2^62` the doubled index
wraps around to a positive value and the access pattern changes.) -/
theorem downHeapWithSizeZ_neg (cmp : α → α → Int) (a : List α) {index heapSize : Int}
    (hidx2 : -2 ^ 62 ≤ index) (hidx : index < 0) (hsz : 0 ≤ heapSize) {fuel : Nat}
    (hf : 0 < fuel) :
    downHeapWithSizeZ cmp a index heapSize fuel = some .crash := by
  obtain ⟨f, rfl⟩ : ∃ f, fuel = f + 1 := ⟨fuel - 1, by omega⟩
  rw [downHeapWithSizeZ]
  have hz : zLargestStep cmp a heapSize (wrap64 (2 * index + 1)) index = none := by
    unfold zLargestStep
    rw [wrap64_id (by omega) (by omega)]
    rw [if_pos (by omega)]
    rw [show getZ a (2 * index + 1) = none from by unfold getZ; rw [if_neg (by omega)]]
  rw [hz]

/-- Sift-down is the identity when the start index is outside the bound. -/
theorem downHeapWithSize_oob (cmp : α → α → Int) (a : List α) {i bound : Nat}
    (h : bound ≤ i) : downHeapWithSize cmp a i bound = a := by
  have hL : dhLargest cmp a i bound = i := by
    unfold dhLargest
    have h1 : dhStep cmp a bound i (Left i) = i := by
      unfold dhStep
      rw [if_neg (by rintro ⟨hg, _⟩; have := lt_left i; omega)]
    rw [h1]
    unfold dhStep
    rw [if_neg (by rintro ⟨hg, _⟩; have := lt_right i; omega)]
  rw [downHeapWithSize, dif_pos hL]

/-- `DownHeap` at a non-negative index in the no-wrap region never panics
and agrees with the `Nat`-indexed sift-down over the full current size. -/
theorem DownHeap_nonneg (cmp : α → α → Int) (a : List α) {index : Int}
    (h : 0 ≤ index) (hi : index ≤ 2 ^ 62 - 2) (hn : a.length ≤ 2 ^ 62 - 1) :
    DownHeap cmp a index = some (.ok (downHeapWithSize cmp a index.toNat a.length)) := by
  unfold DownHeap
  rw [show index = ((index.toNat : Nat) : Int) from (Int.toNat_of_nonneg h).symm]
  rw [Int.toNat_natCast]
  exact downHeapWithSizeZ_eq_ok cmp a index.toNat a.length (le_refl _) (by omega) hn _
    (by omega)

/-- `DownHeap` at an index in `[-2^62, 0)` always panics, whatever the heap
holds: the left-child index stays in `int64`, is negative, and passes the
`l < heapSize` test. -/
theorem DownHeap_neg (cmp : α → α → Int) (a : List α) {index : Int}
    (h2 : -2 ^ 62 ≤ index) (h : index < 0) : DownHeap cmp a index = some .crash :=
  downHeapWithSizeZ_neg cmp a h2 h (Int.natCast_nonneg a.length) (by omega)

/-- On every out-of-range index the public `DownHeap` never modifies the
heap: it either returns with the array unchanged or panics, because an
actual swap would require `items[index]` itself to be a valid access. -/
theorem DownHeap_oob_no_mutate (cmp : α → α → Int) (a : List α) {i : Int}
    (h : i < 0 ∨ (a.length : Int) ≤ i) :
    DownHeap cmp a i = some (.ok a) ∨ DownHeap cmp a i = some .crash := by
  unfold DownHeap
  rcases downHeapWithSizeZ_succ_cases cmp a i (a.length : Int) a.length with
    hh | hh | ⟨largest, xi, y, c, xc, l1, hne, hl0, hlmem, hgi, hgl, hcmem, hch, hgc,
      hcmp, hl1, heq⟩
  · exact Or.inr hh
  · exact Or.inl hh
  · obtain ⟨hi0, hiL, -⟩ := getZ_some hgi
    rcases h with h | h <;> omega

/-- For indices from the size up to `2^62 - 2` the child computations do not
wrap, both children fall outside the effective size, and `DownHeap` is a
genuine no-op. -/
theorem DownHeap_oob_high_noop (cmp : α → α → Int) (a : List α) {i : Int}
    (h1 : (a.length : Int) ≤ i) (h2 : i ≤ 2 ^ 62 - 2) :
    DownHeap cmp a i = some (.ok a) := by
  have h0 : 0 ≤ i := le_trans (Int.natCast_nonneg a.length) h1
  rw [DownHeap_nonneg cmp a h0 h2 (by omega), downHeapWithSize_oob cmp a (by omega)]

/-- From index `2^62 - 1` upwards (on any heap of `int`-representable
length) a child-index computation leaves `int64`: the wrapped child is
negative, passes the `l < heapSize` test, and the access panics. -/
theorem DownHeap_high_crash (cmp : α → α → Int) (a : List α) {i : Int}
    (hn : (a.length : Int) < 2 ^ 63) (h1 : 2 ^ 62 - 1 ≤ i) (h2 : i ≤ 2 ^ 63 - 1) :
    DownHeap cmp a i = some .crash := by
  unfold DownHeap
  rw [downHeapWithSizeZ]
  by_cases hcase : i = 2 ^ 62 - 1
  · have hz1 : zLargestStep cmp a (a.length : Int) (wrap64 (2 * i + 1)) i = some i := by
      unfold zLargestStep
      rw [wrap64_id (by omega) (by omega), if_neg (by omega)]
    rw [hz1]
    simp only []
    have hz2 : zLargestStep cmp a (a.length : Int) (wrap64 (2 * (i + 1))) i = none := by
      unfold zLargestStep
      rw [wrap64_sub (by omega) (by omega), if_pos (by omega)]
      have hg : getZ a (2 * (i + 1) - 2 ^ 64) = none := by
        unfold getZ
        rw [if_neg (by omega)]
      rw [hg]
    rw [hz2]
  · have hz1 : zLargestStep cmp a (a.length : Int) (wrap64 (2 * i + 1)) i = none := by
      unfold zLargestStep
      rw [wrap64_sub (by omega) (by omega), if_pos (by omega)]
      have hg : getZ a (2 * i + 1 - 2 ^ 64) = none := by
        unfold getZ
        rw [if_neg (by omega)]
      rw [hg]
    rw [hz1]

/-- On a valid heap of `int`-representable length, a `DownHeap` call that
returns normally never changes the array: the first iteration already finds
no strictly dominating child — a genuinely dominating child would
contradict the heap property, and a wrapped child access panics instead of
returning. -/
theorem DownHeap_ok_noop {cmp : α → α → Int} (hc : IsTotalPreorderCmp cmp)
    {a b : List α} (hp : HeapProp cmp a) (hn : a.length < 2 ^ 63) {i : Int}
    (h : DownHeap cmp a i = some (.ok b)) : b = a := by
  unfold DownHeap at h
  rcases downHeapWithSizeZ_succ_cases cmp a i (a.length : Int) a.length with
    hh | hh | ⟨largest, xi, y, c, xc, l1, hne, hl0, hlmem, hgi, hgl, hcmem, hch, hgc,
      hcmp, hl1, heq⟩
  · rw [hh] at h
    exact absurd h (by simp)
  · rw [hh] at h
    simp only [Option.some_inj] at h
    cases h
    rfl
  · exfalso
    obtain ⟨hi0, hiL, -⟩ := getZ_some hgi
    obtain ⟨hc0, hcL, hgc2⟩ := getZ_some hgc
    have hxi : a[i.toNat] = xi := getZ_getElem hgi hiL
    have hkey : ∃ k : Nat, c = (k : Int) ∧ Parent k = i.toNat ∧ 0 < k := by
      rcases hcmem with hcw | hcw
      · by_cases hlt : 2 * i + 1 < 2 ^ 63
        · refine ⟨(2 * i + 1).toNat, ?_, ?_, by omega⟩
          · rw [hcw, wrap64_id (by omega) (by omega)]
            omega
          · unfold Parent
            omega
        · rw [hcw, wrap64_sub (by omega) (by omega)] at hc0
          omega
      · by_cases hlt : 2 * (i + 1) < 2 ^ 63
        · refine ⟨(2 * (i + 1)).toNat, ?_, ?_, by omega⟩
          · rw [hcw, wrap64_id (by omega) (by omega)]
            omega
          · unfold Parent
            omega
        · rw [hcw, wrap64_sub (by omega) (by omega)] at hc0
          omega
    obtain ⟨k, hck, hpk, hk0⟩ := hkey
    have hckN : c.toNat = k := by omega
    rw [hckN] at hgc2 hcL
    have hxck : a[k] = xc := by
      rw [List.getElem?_eq_getElem hcL] at hgc2
      exact Option.some_inj.mp hgc2
    have hhp := hp k hcL hk0
    rw [hpk, cmpAt_eq cmp a (by omega) hcL, hxi, hxck] at hhp
    have hle := (hc.1 xi xc).mp hhp
    omega

/-- `Insert` grows the backing slice by exactly one. -/
theorem Insert_length (cmp : α → α → Int) (a : List α) (x : α) :
    (Insert cmp a x).length = a.length + 1 := by
  unfold Insert
  rw [upHeap_length]
  simp

/-- `Pop` never grows the backing slice. -/
theorem Pop_snd_length (cmp : α → α → Int) (a : List α) :
    (Pop cmp a).2.length ≤ a.length := by
  match a with
  | [] =>
    rw [Pop]
  | top :: r =>
    rw [Pop]
    simp only []
    split
    · rw [downHeap, downHeapWithSize_length]
      simp
    · simp

/-- In the index region `[0, 2^63)` every recursion step of the sift-down
loop moves to a strictly larger valid index (a wrapped child is negative and
panics first, apart from one corner at `2^63 - 1` where the first
`largest`-update step itself panics), so `a.length - index.toNat` bounds the
remaining iterations. -/
theorem downHeapWithSizeZ_total_small (cmp : α → α → Int) :
    ∀ (fuel : Nat) (a : List α) (i hs : Int), 0 ≤ i → i < 2 ^ 63 →
    a.length - i.toNat < fuel →
    ∃ r, downHeapWithSizeZ cmp a i hs fuel = some r := by
  intro fuel
  induction fuel with
  | zero =>
    intro a i hs h0 h63 hf
    omega
  | succ f ih =>
    intro a i hs h0 h63 hf
    show ∃ r, downHeapWithSizeZ cmp a i hs (f + 1) = some r
    rcases downHeapWithSizeZ_succ_cases cmp a i hs f with
      hh | hh | ⟨largest, xi, y, c, xc, l1, hne, hl0, hlmem, hgi, hgl, hcmem, hch, hgc,
        hcmp, hl1, heq⟩
    · exact ⟨.crash, hh⟩
    · exact ⟨.ok a, hh⟩
    · rw [heq]
      obtain ⟨hi0, hiL, -⟩ := getZ_some hgi
      obtain ⟨hl0b, hlL, -⟩ := getZ_some hgl
      have hgt : i < largest := by
        rcases hlmem with hw | hw
        · by_cases hlt : 2 * i + 1 < 2 ^ 63
          · rw [hw, wrap64_id (by omega) (by omega)]
            omega
          · rw [hw, wrap64_sub (by omega) (by omega)] at hl0
            omega
        · by_cases hlt : 2 * (i + 1) < 2 ^ 63
          · rw [hw, wrap64_id (by omega) (by omega)]
            omega
          · by_cases hful : 2 * (i + 1) < 2 ^ 64
            · rw [hw, wrap64_sub (by omega) (by omega)] at hl0
              omega
            · exfalso
              have hwl : wrap64 (2 * i + 1) = -1 := by
                rw [wrap64_sub (by omega) (by omega)]
                omega
              rw [hwl] at hl1
              unfold zLargestStep at hl1
              have hchs : (-1 : Int) < hs := by
                rcases hcmem with hcw | hcw
                · rw [hcw, hwl] at hgc
                  obtain ⟨hcz, -, -⟩ := getZ_some hgc
                  omega
                · have hcz : c = 0 := by
                    rw [hcw, wrap64_sub (by omega) (by omega)]
                    omega
                  omega
              have hgneg : getZ a (-1 : Int) = none := by
                unfold getZ
                rw [if_neg (by omega)]
              rw [if_pos hchs, hgneg, hgi] at hl1
              simp only [] at hl1
              exact absurd hl1 (by simp)
      have hl63 : largest < 2 ^ 63 := by
        rcases hlmem with hw | hw
        · rw [hw]
          exact wrap64_ub _
        · rw [hw]
          exact wrap64_ub _
      have hmeas : ((a.set i.toNat y).set largest.toNat xi).length - largest.toNat < f := by
        simp only [List.length_set]
        omega
      exact ih ((a.set i.toNat y).set largest.toNat xi) largest hs hl0b hl63 hmeas

/-- Fuel `a.length + 2` always suffices for the `Int`-indexed sift-down
loop: whatever the comparator, start index and effective size, the loop
reaches a result — a normal return or a panic — instead of running out of
fuel.  An index at or beyond `2^63` can recurse at most once (onto a
wrapped child inside `[0, 2^63)`), and a negative index cannot recurse at
all. -/
theorem downHeapWithSizeZ_total (cmp : α → α → Int) (a : List α) (i hs : Int) :
    ∃ r, downHeapWithSizeZ cmp a i hs (a.length + 2) = some r := by
  by_cases h0 : 0 ≤ i
  · by_cases h63 : i < 2 ^ 63
    · exact downHeapWithSizeZ_total_small cmp (a.length + 2) a i hs h0 h63 (by omega)
    · show ∃ r, downHeapWithSizeZ cmp a i hs (a.length + 1 + 1) = some r
      rcases downHeapWithSizeZ_succ_cases cmp a i hs (a.length + 1) with
        hh | hh | ⟨largest, xi, y, c, xc, l1, hne, hl0, hlmem, hgi, hgl, hcmem, hch,
          hgc, hcmp, hl1, heq⟩
      · exact ⟨.crash, hh⟩
      · exact ⟨.ok a, hh⟩
      · rw [heq]
        obtain ⟨hl0b, hlL, -⟩ := getZ_some hgl
        have hl63 : largest < 2 ^ 63 := by
          rcases hlmem with hw | hw
          · rw [hw]
            exact wrap64_ub _
          · rw [hw]
            exact wrap64_ub _
        apply downHeapWithSizeZ_total_small cmp (a.length + 1)
          ((a.set i.toNat y).set largest.toNat xi) largest hs hl0b hl63
        simp only [List.length_set]
        omega
  · show ∃ r, downHeapWithSizeZ cmp a i hs (a.length + 1 + 1) = some r
    rcases downHeapWithSizeZ_succ_cases cmp a i hs (a.length + 1) with
      hh | hh | ⟨largest, xi, y, c, xc, l1, hne, hl0, hlmem, hgi, hgl, hcmem, hch,
        hgc, hcmp, hl1, heq⟩
    · exact ⟨.crash, hh⟩
    · exact ⟨.ok a, hh⟩
    · exact absurd (getZ_some hgi).1 h0

/-- Fuel-indexed transcription of the `upHeap` loop; `none` means the fuel
ran out before the loop finished. -/
def upHeapF (cmp : α → α → Int) : Nat → List α → Nat → Option (List α)
  | 0, _, _ => none
  | fuel + 1, a, index =>
    if index = 0 then some a
    else if 0 ≤ cmpAt cmp a (Parent index) index then some a
    else upHeapF cmp fuel (swap a (Parent index) index) (Parent index)

/-- `index + 1` iterations of fuel always suffice for the sift-up loop: the
working index strictly decreases, so the loop terminates and computes
`upHeap`. -/
theorem upHeapF_eq (cmp : α → α → Int) :
    ∀ (fuel : Nat) (a : List α) (index : Nat), index < fuel →
    upHeapF cmp fuel a index = some (upHeap cmp a index) := by
  intro fuel
  induction fuel with
  | zero => intro a index h; omega
  | succ f ih =>
    intro a index h
    rw [upHeapF, upHeap]
    by_cases h0 : index = 0
    · simp [h0]
    · rw [if_neg h0, dif_neg h0]
      by_cases hcp : 0 ≤ cmpAt cmp a (Parent index) index
      · rw [if_pos hcp, if_pos hcp]
      · rw [if_neg hcp, if_neg hcp]
        exact ih _ (Parent index) (by have := parent_lt (Nat.pos_of_ne_zero h0); omega)

/-- The four public mutating heap operations of the package. -/
inductive HeapOp (α : Type _) where
  | insertOp : α → HeapOp α
  | popOp : HeapOp α
  | upHeapOp : Int → HeapOp α
  | downHeapOp : Int → HeapOp α

/-- State transition of a single public call; `none` models a Go panic.
`DownHeap` panics whenever its (wrapped) child computation reaches an
invalid slot, and `Insert` panics when `append` would push the slice length
past the maximum `int` (`2^63 - 1`), so a backing slice never reaches
length `2^63`. -/
def runOp (cmp : α → α → Int) (a : List α) : HeapOp α → Option (List α)
  | .insertOp x => if a.length + 1 < 2 ^ 63 then some (Insert cmp a x) else none
  | .popOp => some (Pop cmp a).2
  | .upHeapOp i => some (UpHeap cmp a i)
  | .downHeapOp i =>
    match DownHeap cmp a i with
    | some (.ok b) => some b
    | _ => none

/-- Run a sequence of public heap operations from a starting state. -/
def runOps (cmp : α → α → Int) : List (HeapOp α) → List α → Option (List α)
  | [], a => some a
  | op :: ops, a =>
    match runOp cmp a op with
    | some b => runOps cmp ops b
    | none => none

/-- One completing public call preserves the heap property and keeps the
backing slice within the maximum `int` length of a Go slice. -/
theorem runOp_heapProp {cmp : α → α → Int} (hc : IsTotalPreorderCmp cmp)
    {a b : List α} {op : HeapOp α} (h : HeapProp cmp a) (hlen : a.length < 2 ^ 63)
    (hr : runOp cmp a op = some b) : HeapProp cmp b ∧ b.length < 2 ^ 63 := by
  cases op with
  | insertOp x =>
    rw [runOp] at hr
    by_cases hcap : a.length + 1 < 2 ^ 63
    · rw [if_pos hcap, Option.some_inj] at hr
      refine ⟨hr ▸ Insert_heapProp hc a x h, ?_⟩
      rw [← hr, Insert_length]
      exact hcap
    · rw [if_neg hcap] at hr
      exact absurd hr (by simp)
  | popOp =>
    rw [runOp, Option.some_inj] at hr
    refine ⟨hr ▸ Pop_heapProp hc a h, ?_⟩
    rw [← hr]
    have := Pop_snd_length cmp a
    omega
  | upHeapOp i =>
    rw [runOp, Option.some_inj] at hr
    rw [← hr, UpHeap_noop h i]
    exact ⟨h, hlen⟩
  | downHeapOp i =>
    rw [runOp] at hr
    rcases hd : DownHeap cmp a i with _ | r
    · rw [hd] at hr
      exact absurd hr (by simp)
    · rw [hd] at hr
      cases r with
      | crash =>
        simp only [] at hr
        exact absurd hr (by simp)
      | ok c =>
        simp only [Option.some_inj] at hr
        have hca : c = a := DownHeap_ok_noop hc h hlen hd
        rw [← hr, hca]
        exact ⟨h, hlen⟩

theorem runOps_heapProp {cmp : α → α → Int} (hc : IsTotalPreorderCmp cmp) :
    ∀ (ops : List (HeapOp α)) (a b : List α), HeapProp cmp a → a.length < 2 ^ 63 →
    runOps cmp ops a = some b → HeapProp cmp b ∧ b.length < 2 ^ 63 := by
  intro ops
  induction ops with
  | nil =>
    intro a b h hlen hr
    rw [runOps, Option.some_inj] at hr
    exact hr ▸ ⟨h, hlen⟩
  | cons op ops ih =>
    intro a b h hlen hr
    rw [runOps] at hr
    cases ho : runOp cmp a op with
    | none => rw [ho] at hr; simp at hr
    | some c =>
      rw [ho] at hr
      simp only [] at hr
      obtain ⟨hc1, hc2⟩ := runOp_heapProp hc h hlen ho
      exact ih c b hc1 hc2 hr

/-- The heapify loop of `BuildHeap`: `for i := size/2 - 1; i >= 0; i--`,
realised with a counter; at counter `k + 1` the loop body runs on index `k`. -/
def buildHeapLoop (cmp : α → α → Int) (size : Nat) : Nat → List α → List α
  | 0, a => a
  | k + 1, a => buildHeapLoop cmp size k (downHeapWithSize cmp a k size)

/-- `BuildHeap` from the source: take ownership of the array and heapify
bottom-up with the full size as the bound. -/
def BuildHeap (cmp : α → α → Int) (a : List α) : List α :=
  buildHeapLoop cmp a.length (a.length / 2) a

theorem buildHeapLoop_length (cmp : α → α → Int) (size : Nat) :
    ∀ (k : Nat) (a : List α), (buildHeapLoop cmp size k a).length = a.length := by
  intro k
  induction k with
  | zero => intro a; rfl
  | succ k ih =>
    intro a
    rw [buildHeapLoop, ih, downHeapWithSize_length]

theorem buildHeapLoop_perm (cmp : α → α → Int) (size : Nat) :
    ∀ (k : Nat) (a : List α), List.Perm (buildHeapLoop cmp size k a) a := by
  intro k
  induction k with
  | zero => intro a; exact List.Perm.refl a
  | succ k ih =>
    intro a
    rw [buildHeapLoop]
    exact (ih _).trans (downHeapWithSize_perm cmp a k size)

theorem buildHeapLoop_restores {cmp : α → α → Int} (hc : IsTotalPreorderCmp cmp)
    (size : Nat) : ∀ (k : Nat) (a : List α), size ≤ a.length →
    (∀ j, 0 < j → j < size → k ≤ Parent j → 0 ≤ cmpAt cmp a (Parent j) j) →
    ∀ j, 0 < j → j < size →
      0 ≤ cmpAt cmp (buildHeapLoop cmp size k a) (Parent j) j := by
  intro k
  induction k with
  | zero =>
    intro a _ hyp j hj0 hjb
    exact hyp j hj0 hjb (Nat.zero_le _)
  | succ k ih =>
    intro a hsz hyp j hj0 hjb
    rw [buildHeapLoop]
    refine ih _ (by rw [downHeapWithSize_length]; exact hsz) ?_ j hj0 hjb
    intro j' hj'0 hj'b hkP
    apply downHeapWithSize_restores hc k a k size hsz (le_refl k)
    · intro j2 hj20 hj2b hkP2 hPne
      exact hyp j2 hj20 hj2b (by omega)
    · intro hk0 hkPk
      exact absurd hkPk (by have := parent_lt hk0; omega)
    · exact hj'0
    · exact hj'b
    · exact hkP

/-- `BuildHeap` yields the heap property at every node. -/
theorem BuildHeap_heapProp {cmp : α → α → Int} (hc : IsTotalPreorderCmp cmp)
    (a : List α) : HeapProp cmp (BuildHeap cmp a) := by
  intro j hjlen hj0
  rw [BuildHeap] at hjlen ⊢
  rw [buildHeapLoop_length] at hjlen
  apply buildHeapLoop_restores hc a.length (a.length / 2) a (le_refl _)
  · intro j2 hj20 hj2b hP
    exfalso
    unfold Parent at hP
    omega
  · exact hj0
  · exact hjlen

theorem BuildHeap_perm (cmp : α → α → Int) (a : List α) :
    List.Perm (BuildHeap cmp a) a :=
  buildHeapLoop_perm cmp a.length (a.length / 2) a

/-- `maxCmp` from the source: `1` when `*a > *b`, `-1` when `*a < *b`, else `0`. -/
def maxCmp [LinearOrder β] (a b : β) : Int :=
  if a > b then 1 else if a < b then -1 else 0

/-- `minCmp` from the source: `1` when `*a < *b`, `-1` when `*a > *b`, else `0`. -/
def minCmp [LinearOrder β] (a b : β) : Int :=
  if a < b then 1 else if a > b then -1 else 0

/-- `BuildMaxHeap` from the source. -/
def BuildMaxHeap [LinearOrder β] (a : List β) : List β := BuildHeap maxCmp a

/-- `BuildMinHeap` from the source. -/
def BuildMinHeap [LinearOrder β] (a : List β) : List β := BuildHeap minCmp a

theorem maxCmp_nonneg_iff [LinearOrder β] (a b : β) : 0 ≤ maxCmp a b ↔ b ≤ a := by
  unfold maxCmp
  split_ifs with h1 h2
  · simp [le_of_lt h1]
  · simp [not_le.mpr h2]
  · simp [not_lt.mp h2]

theorem maxCmp_nonpos_iff [LinearOrder β] (a b : β) : maxCmp a b ≤ 0 ↔ a ≤ b := by
  unfold maxCmp
  split_ifs with h1 h2
  · simp [not_le.mpr h1]
  · simp [le_of_lt h2]
  · simp [not_lt.mp h1]

theorem maxCmp_total (β : Type _) [LinearOrder β] :
    IsTotalPreorderCmp (maxCmp : β → β → Int) := by
  constructor
  · intro a b
    rw [maxCmp_nonneg_iff, maxCmp_nonpos_iff]
  · intro a b c h1 h2
    rw [maxCmp_nonneg_iff] at h1 h2 ⊢
    exact le_trans h2 h1

theorem minCmp_nonneg_iff [LinearOrder β] (a b : β) : 0 ≤ minCmp a b ↔ a ≤ b := by
  unfold minCmp
  split_ifs with h1 h2
  · simp [le_of_lt h1]
  · simp [not_le.mpr h2]
  · simp [not_lt.mp h2]

theorem minCmp_total (β : Type _) [LinearOrder β] :
    IsTotalPreorderCmp (minCmp : β → β → Int) := by
  constructor
  · intro a b
    rw [minCmp_nonneg_iff]
    unfold minCmp
    split_ifs with h1 h2
    · simp [not_le.mpr h1]
    · simp [le_of_lt h2]
    · simp [not_lt.mp h1]
  · intro a b c h1 h2
    rw [minCmp_nonneg_iff] at h1 h2 ⊢
    exact le_trans h1 h2

/-- The extraction loop of `HeapSort`:
`for i := heapSize - 1; i > 0; i-- { swap(0, i); heapSize--; downHeapWithSize(0, heapSize) }`,
realised with the loop counter as the recursion argument. -/
def heapSortLoop (cmp : α → α → Int) : Nat → List α → List α
  | 0, a => a
  | i + 1, a => heapSortLoop cmp i (downHeapWithSize cmp (swap a 0 (i + 1)) 0 (i + 1))

/-- `HeapSort` from the source: build a max-heap, then repeatedly swap the
root to the end of the shrinking bound and sift down, starting the counter
at `heapSize - 1` for the built heap's size. -/
def HeapSort [LinearOrder β] (a : List β) : List β :=
  heapSortLoop maxCmp ((BuildMaxHeap a).length - 1) (BuildMaxHeap a)

theorem heapSortLoop_length (cmp : α → α → Int) :
    ∀ (i : Nat) (a : List α), (heapSortLoop cmp i a).length = a.length := by
  intro i
  induction i with
  | zero => intro a; rfl
  | succ i ih =>
    intro a
    rw [heapSortLoop, ih, downHeapWithSize_length, swap_length]

theorem heapSortLoop_perm (cmp : α → α → Int) :
    ∀ (i : Nat) (a : List α), List.Perm (heapSortLoop cmp i a) a := by
  intro i
  induction i with
  | zero => intro a; exact List.Perm.refl a
  | succ i ih =>
    intro a
    rw [heapSortLoop]
    exact ((ih _).trans (downHeapWithSize_perm cmp _ 0 (i + 1))).trans
      (swap_perm a 0 (i + 1))

theorem downHeapWithSize_drop (cmp : α → α → Int) (a : List α) (i bound : Nat) :
    (downHeapWithSize cmp a i bound).drop bound = a.drop bound := by
  apply List.ext_getElem?
  intro n
  rw [List.getElem?_drop, List.getElem?_drop,
    downHeapWithSize_untouched cmp a i bound _ (Nat.le_add_right bound n)]

theorem downHeapWithSize_take_perm (cmp : α → α → Int) (a : List α) (i bound : Nat) :
    List.Perm ((downHeapWithSize cmp a i bound).take bound) (a.take bound) := by
  have h1 : List.Perm
      ((downHeapWithSize cmp a i bound).take bound ++
        (downHeapWithSize cmp a i bound).drop bound)
      (a.take bound ++ a.drop bound) := by
    rw [List.take_append_drop, List.take_append_drop]
    exact downHeapWithSize_perm cmp a i bound
  rw [downHeapWithSize_drop] at h1
  exact (List.perm_append_right_iff _).mp h1

/-- Every slot below the bound in the sifted array holds a value that was
below the bound before the sift. -/
theorem downHeapWithSize_take_mem (cmp : α → α → Int) (a : List α) (i bound p : Nat)
    (hp : p < bound) (hpl : p < (downHeapWithSize cmp a i bound).length) :
    ∃ p', p' < bound ∧ a[p']? = (downHeapWithSize cmp a i bound)[p]? := by
  have hv : (downHeapWithSize cmp a i bound)[p]? =
      some (downHeapWithSize cmp a i bound)[p] := List.getElem?_eq_getElem hpl
  have hmem : (downHeapWithSize cmp a i bound)[p] ∈
      (downHeapWithSize cmp a i bound).take bound := by
    rw [List.mem_iff_getElem?]
    exact ⟨p, by rw [List.getElem?_take, if_pos hp]; exact hv⟩
  have hmem2 := (downHeapWithSize_take_perm cmp a i bound).mem_iff.mp hmem
  rw [List.mem_iff_getElem?] at hmem2
  obtain ⟨n, hn⟩ := hmem2
  rw [List.getElem?_take] at hn
  by_cases hnb : n < bound
  · rw [if_pos hnb] at hn
    exact ⟨n, hnb, by rw [hn]; exact hv.symm⟩
  · rw [if_neg hnb] at hn
    exact absurd hn (by simp)

/-- In a heap (bounded by `bound`), the root dominates every slot. -/
theorem heapPropB_root {cmp : α → α → Int} (hc : IsTotalPreorderCmp cmp)
    {a : List α} {bound : Nat} (hbl : bound ≤ a.length)
    (hB : ∀ j, 0 < j → j < bound → 0 ≤ cmpAt cmp a (Parent j) j) :
    ∀ j, j < bound → 0 ≤ cmpAt cmp a 0 j := by
  intro j
  induction j using Nat.strong_induction_on with
  | _ j ih =>
    intro hjb
    rcases Nat.eq_zero_or_pos j with rfl | hj0
    · exact cmpAt_refl hc (lt_of_lt_of_le hjb hbl)
    · have hjl : j < a.length := lt_of_lt_of_le hjb hbl
      have hPl : Parent j < a.length := (parent_lt hj0).trans hjl
      have h0l : 0 < a.length := by omega
      exact cmpAt_trans hc h0l hPl hjl
        (ih (Parent j) (parent_lt hj0) ((parent_lt hj0).trans hjb)) (hB j hj0 hjb)

theorem getElem_eq_of_getElem? {X Y : List α} {n m : Nat}
    (hn : n < X.length) (hm : m < Y.length) (h : X[n]? = Y[m]?) : X[n] = Y[m] := by
  rw [List.getElem?_eq_getElem hn, List.getElem?_eq_getElem hm] at h
  exact Option.some_inj.mp h

/-- Main invariant of the heap-sort extraction loop: if slots `[0, i+1)`
form a heap, the suffix `[i+1, len)` is sorted, and every slot of the heap
region is bounded by every slot of the suffix, then the loop sorts the
whole array ascending (for the max comparator). -/
theorem heapSortLoop_sorted_aux [LinearOrder β] :
    ∀ (i : Nat) (a : List β), i < a.length →
    (∀ j, 0 < j → j < i + 1 → 0 ≤ cmpAt maxCmp a (Parent j) j) →
    (∀ p q (hp : p < a.length) (hq : q < a.length), i + 1 ≤ p → p ≤ q → a[p] ≤ a[q]) →
    (∀ p q (hp : p < a.length) (hq : q < a.length), p < i + 1 → i + 1 ≤ q → a[p] ≤ a[q]) →
    ∀ p q (hp : p < (heapSortLoop maxCmp i a).length)
      (hq : q < (heapSortLoop maxCmp i a).length), p ≤ q →
      (heapSortLoop maxCmp i a)[p] ≤ (heapSortLoop maxCmp i a)[q] := by
  intro i
  induction i with
  | zero =>
    intro a _ _ hsuffix hsplit p q hp hq hpq
    show a[p] ≤ a[q]
    rcases Nat.eq_or_lt_of_le hpq with rfl | hlt
    · exact le_refl _
    · rcases Nat.eq_zero_or_pos p with rfl | hp0
      · exact hsplit 0 q hp hq (by omega) (by omega)
      · exact hsuffix p q hp hq (by omega) hpq
  | succ i ih =>
    intro a hlen hheap hsuffix hsplit
    rw [heapSortLoop]
    have h0l : 0 < a.length := by omega
    have hi1 : i + 1 < a.length := hlen
    have hswlen : (swap a 0 (i + 1)).length = a.length := swap_length a 0 (i + 1)
    have hdhlen : (downHeapWithSize maxCmp (swap a 0 (i + 1)) 0 (i + 1)).length =
        a.length := by rw [downHeapWithSize_length, hswlen]
    -- the root of the old heap region dominates the whole region
    have hroot : ∀ j, j < i + 2 → ∀ (hjl : j < a.length), a[j] ≤ a[0] := by
      intro j hj hjl
      have := heapPropB_root (maxCmp_total β) (by omega)
        (fun j hj0 hjb => hheap j hj0 hjb) j hj
      rw [cmpAt_eq maxCmp a h0l hjl, maxCmp_nonneg_iff] at this
      exact this
    -- positions at or beyond i+1 after the sift
    have huntouched : ∀ q, i + 1 ≤ q →
        (downHeapWithSize maxCmp (swap a 0 (i + 1)) 0 (i + 1))[q]? =
          (swap a 0 (i + 1))[q]? :=
      fun q hq => downHeapWithSize_untouched maxCmp _ 0 (i + 1) q hq
    have hsw_at : ∀ k, (swap a 0 (i + 1))[k]? = a[swId 0 (i + 1) k]? :=
      swap_getElem? a h0l hi1
    apply ih
    · omega
    · -- heap property on [0, i+1) after swap and sift
      intro j hj0 hjb
      apply downHeapWithSize_restores (maxCmp_total β) 0 (swap a 0 (i + 1)) 0 (i + 1)
        (by omega) (le_refl 0)
      · intro j2 hj20 hj2b _ hPne
        have hj2l : j2 < a.length := by omega
        have hP2l : Parent j2 < a.length := (parent_lt hj20).trans hj2l
        rw [swap_cmpAt maxCmp a h0l hi1,
          swId_other hPne (by have := parent_lt hj20; omega),
          swId_other (by omega) (by omega)]
        exact hheap j2 hj20 (by omega)
      · intro h0; exact absurd h0 (lt_irrefl 0)
      · exact hj0
      · exact hjb
      · exact Nat.zero_le _
    · -- the suffix [i+1, len) is sorted after the step
      intro p q hp hq hip hpq
      rw [hdhlen] at hp hq
      rcases Nat.eq_or_lt_of_le hip with rfl | hpgt
      · -- the slot at i+1 now holds the old root
        have hb1 : i + 1 < (downHeapWithSize maxCmp (swap a 0 (i + 1)) 0 (i + 1)).length := by
          rw [hdhlen]; omega
        have hvp : (downHeapWithSize maxCmp (swap a 0 (i + 1)) 0 (i + 1))[i + 1]? =
            a[0]? := by
          rw [huntouched (i + 1) (le_refl _), hsw_at, swId_right (by omega)]
        have hep : (downHeapWithSize maxCmp (swap a 0 (i + 1)) 0 (i + 1))[i + 1] = a[0] :=
          getElem_eq_of_getElem? hb1 h0l hvp
        rcases Nat.eq_or_lt_of_le hpq with rfl | hqgt
        · exact le_refl _
        · have hbq : q < (downHeapWithSize maxCmp (swap a 0 (i + 1)) 0 (i + 1)).length := by
            rw [hdhlen]; omega
          have hvq : (downHeapWithSize maxCmp (swap a 0 (i + 1)) 0 (i + 1))[q]? =
              a[q]? := by
            rw [huntouched q (by omega), hsw_at, swId_other (by omega) (by omega)]
          have heq : (downHeapWithSize maxCmp (swap a 0 (i + 1)) 0 (i + 1))[q] = a[q] :=
            getElem_eq_of_getElem? hbq hq hvq
          rw [hep, heq]
          exact hsplit 0 q h0l hq (by omega) (by omega)
      · have hbp : p < (downHeapWithSize maxCmp (swap a 0 (i + 1)) 0 (i + 1)).length := by
          rw [hdhlen]; omega
        have hbq : q < (downHeapWithSize maxCmp (swap a 0 (i + 1)) 0 (i + 1)).length := by
          rw [hdhlen]; omega
        have hvp : (downHeapWithSize maxCmp (swap a 0 (i + 1)) 0 (i + 1))[p]? =
            a[p]? := by
          rw [huntouched p (by omega), hsw_at, swId_other (by omega) (by omega)]
        have hvq : (downHeapWithSize maxCmp (swap a 0 (i + 1)) 0 (i + 1))[q]? =
            a[q]? := by
          rw [huntouched q (by omega), hsw_at, swId_other (by omega) (by omega)]
        rw [getElem_eq_of_getElem? hbp hp hvp, getElem_eq_of_getElem? hbq hq hvq]
        exact hsuffix p q hp hq (by omega) hpq
    · -- every heap-region slot is bounded by every suffix slot
      intro p q hp hq hpi hiq
      rw [hdhlen] at hp hq
      obtain ⟨p', hp'b, hp'⟩ := downHeapWithSize_take_mem maxCmp (swap a 0 (i + 1))
        0 (i + 1) p (by omega) (by rw [hdhlen]; omega)
      rw [hsw_at] at hp'
      have hbp : p < (downHeapWithSize maxCmp (swap a 0 (i + 1)) 0 (i + 1)).length := by
        rw [hdhlen]; omega
      rcases Nat.eq_or_lt_of_le hiq with rfl | hqgt
      · -- the slot at i+1 holds the old root, which dominates the heap region
        have hb1 : i + 1 < (downHeapWithSize maxCmp (swap a 0 (i + 1)) 0 (i + 1)).length := by
          rw [hdhlen]; omega
        have hvq : (downHeapWithSize maxCmp (swap a 0 (i + 1)) 0 (i + 1))[i + 1]? =
            a[0]? := by
          rw [huntouched (i + 1) (le_refl _), hsw_at, swId_right (by omega)]
        have heq : (downHeapWithSize maxCmp (swap a 0 (i + 1)) 0 (i + 1))[i + 1] = a[0] :=
          getElem_eq_of_getElem? hb1 h0l hvq
        rw [heq]
        rcases Nat.eq_zero_or_pos p' with rfl | hp'0
        · rw [swId_left] at hp'
          have hep : a[i + 1] =
              (downHeapWithSize maxCmp (swap a 0 (i + 1)) 0 (i + 1))[p] :=
            getElem_eq_of_getElem? hi1 hbp hp'
          rw [← hep]
          exact hroot (i + 1) (by omega) hi1
        · rw [swId_other (by omega) (by omega)] at hp'
          have hbp' : p' < a.length := by omega
          have hep : a[p'] =
              (downHeapWithSize maxCmp (swap a 0 (i + 1)) 0 (i + 1))[p] :=
            getElem_eq_of_getElem? hbp' hbp hp'
          rw [← hep]
          exact hroot p' (by omega) (by omega)
      · have hbq : q < (downHeapWithSize maxCmp (swap a 0 (i + 1)) 0 (i + 1)).length := by
          rw [hdhlen]; omega
        have hvq : (downHeapWithSize maxCmp (swap a 0 (i + 1)) 0 (i + 1))[q]? =
            a[q]? := by
          rw [huntouched q (by omega), hsw_at, swId_other (by omega) (by omega)]
        have heq : (downHeapWithSize maxCmp (swap a 0 (i + 1)) 0 (i + 1))[q] = a[q] :=
          getElem_eq_of_getElem? hbq hq hvq
        rw [heq]
        rcases Nat.eq_zero_or_pos p' with rfl | hp'0
        · rw [swId_left] at hp'
          have hep : a[i + 1] =
              (downHeapWithSize maxCmp (swap a 0 (i + 1)) 0 (i + 1))[p] :=
            getElem_eq_of_getElem? hi1 hbp hp'
          rw [← hep]
          exact hsplit (i + 1) q hi1 hq (by omega) (by omega)
        · rw [swId_other (by omega) (by omega)] at hp'
          have hbp' : p' < a.length := by omega
          have hep : a[p'] =
              (downHeapWithSize maxCmp (swap a 0 (i + 1)) 0 (i + 1))[p] :=
            getElem_eq_of_getElem? hbp' hbp hp'
          rw [← hep]
          exact hsplit p' q (by omega) hq (by omega) (by omega)

theorem BuildHeap_length (cmp : α → α → Int) (a : List α) :
    (BuildHeap cmp a).length = a.length := by
  unfold BuildHeap
  rw [buildHeapLoop_length]

theorem HeapSort_length [LinearOrder β] (a : List β) :
    (HeapSort a).length = a.length := by
  unfold HeapSort BuildMaxHeap
  rw [heapSortLoop_length, BuildHeap_length]

theorem HeapSort_perm [LinearOrder β] (a : List β) : List.Perm (HeapSort a) a := by
  unfold HeapSort BuildMaxHeap
  exact (heapSortLoop_perm maxCmp _ _).trans (BuildHeap_perm maxCmp a)

/-- `HeapSort` sorts ascending. -/
theorem HeapSort_sorted [LinearOrder β] (a : List β) :
    List.Sorted (· ≤ ·) (HeapSort a) := by
  apply List.pairwise_iff_getElem.mpr
  intro p q hp hq hpq
  rcases Nat.eq_zero_or_pos a.length with hl | hl
  · exfalso
    rw [HeapSort_length] at hp
    omega
  · unfold HeapSort BuildMaxHeap at hp hq ⊢
    have hbl := BuildHeap_length maxCmp a
    apply heapSortLoop_sorted_aux ((BuildHeap maxCmp a).length - 1) (BuildHeap maxCmp a)
    · omega
    · intro j hj0 hjb
      exact BuildHeap_heapProp (maxCmp_total β) a j (by omega) hj0
    · intro p' q' hp' hq' hip'
      exfalso
      omega
    · intro p' q' hp' hq' _ hiq'
      exfalso
      omega
    · exact le_of_lt hpq

theorem pop_state_perm (cmp : α → α → Int) (top : α) (r : List α) :
    List.Perm (Pop cmp (top :: r)).2 r := by
  rw [Pop]
  simp only []
  have hset : (top :: r).set 0 ((top :: r).getD ((top :: r).length - 1) top) =
      (top :: r).getD ((top :: r).length - 1) top :: r := rfl
  rw [hset]
  have hlen : (top :: r).length - 1 = r.length := by simp
  rw [hlen]
  have hperm : List.Perm (((top :: r).getD r.length top :: r).take r.length) r := by
    cases r with
    | nil => simp
    | cons z r' =>
      have hzr : r'.length < (z :: r').length := by simp
      have hyv : (top :: z :: r').getD (z :: r').length top =
          (z :: r')[r'.length] := by
        rw [List.getD_eq_getElem?_getD,
          show ((z :: r').length) = r'.length + 1 from rfl,
          List.getElem?_cons_succ, List.getElem?_eq_getElem (by simp)]
        rfl
      rw [hyv, show ((z :: r').length) = r'.length + 1 from rfl, List.take_succ_cons]
      have hdl : List.take r'.length (z :: r') = (z :: r').dropLast := by
        rw [List.dropLast_eq_take]
        simp
      rw [hdl]
      have hlast : (z :: r').dropLast ++ [(z :: r')[r'.length]] = z :: r' := by
        have h1 := List.dropLast_append_getLast (l := z :: r') (by simp)
        rw [List.getLast_eq_getElem] at h1
        exact h1
      refine List.Perm.trans (List.perm_append_singleton _ _).symm ?_
      rw [hlast]
  split
  · exact List.Perm.trans (downHeapWithSize_perm cmp _ 0 _) hperm
  · exact hperm

theorem Pop_ok_facts (cmp : α → α → Int) {a : List α} {t : α} {rest : List α}
    (h : Pop cmp a = (.ok t, rest)) :
    List.Perm a (t :: rest) ∧ rest.length + 1 = a.length ∧ a[0]? = some t := by
  match a with
  | [] =>
    rw [Pop] at h
    simp at h
  | top :: r =>
    have h1 : (Pop cmp (top :: r)).1 = .ok top := by rw [Pop]
    have h2 : (Pop cmp (top :: r)).2 = rest := by rw [h]
    rw [h] at h1
    simp only [] at h1
    have ht : t = top := by
      cases h1
      rfl
    subst ht
    have hp := pop_state_perm cmp t r
    rw [h2] at hp
    refine ⟨List.Perm.cons t hp.symm, ?_, by simp⟩
    have := hp.length_eq
    simp [this]

/-- Repeatedly `Pop` until the heap reports empty, collecting the results
in order. -/
def drain (cmp : α → α → Int) (a : List α) : List α :=
  match h : Pop cmp a with
  | (.error _, _) => []
  | (.ok top, rest) => top :: drain cmp rest
termination_by a.length
decreasing_by
  have := (Pop_ok_facts cmp h).2
  omega

theorem drain_facts_aux {cmp : α → α → Int} (hc : IsTotalPreorderCmp cmp) :
    ∀ (n : Nat) (a : List α), a.length ≤ n → HeapProp cmp a →
    List.Pairwise (fun x y => 0 ≤ cmp x y) (drain cmp a) ∧
      List.Perm (drain cmp a) a := by
  intro n
  induction n with
  | zero =>
    intro a hlen _
    obtain rfl : a = [] := List.length_eq_zero.mp (by omega)
    rw [drain]
    exact ⟨List.Pairwise.nil, List.Perm.refl _⟩
  | succ n ih =>
    intro a hlen hheap
    cases hpop : Pop cmp a with
    | mk r1 r2 =>
      cases r1 with
      | error e =>
        cases a with
        | nil =>
          rw [drain]
          exact ⟨List.Pairwise.nil, List.Perm.refl _⟩
        | cons top r =>
          have : (Pop cmp (top :: r)).1 = .ok top := by rw [Pop]
          rw [hpop] at this
          simp at this
      | ok t =>
        have hfacts := Pop_ok_facts cmp hpop
        have hde : drain cmp a = t :: drain cmp r2 := by
          rw [drain, hpop]
        have hrest : HeapProp cmp r2 := by
          have := Pop_heapProp hc a hheap
          rw [hpop] at this
          exact this
        obtain ⟨hpw, hpm⟩ := ih r2 (by omega) hrest
        rw [hde]
        constructor
        · rw [List.pairwise_cons]
          refine ⟨?_, hpw⟩
          intro y hy
          have hy2 : y ∈ r2 := hpm.mem_iff.mp hy
          have hy3 : y ∈ a := hfacts.1.mem_iff.mpr (List.mem_cons_of_mem t hy2)
          obtain ⟨j, hj⟩ := List.mem_iff_getElem?.mp hy3
          have hjl : j < a.length := by
            by_contra hge
            rw [List.getElem?_eq_none (by omega)] at hj
            exact absurd hj (by simp)
          have hroot := heapPropB_root hc (le_refl a.length)
            (fun j hj0 hjb => hheap j hjb hj0) j hjl
          unfold cmpAt at hroot
          rw [hfacts.2.2, hj] at hroot
          exact hroot
        · exact (List.Perm.cons t hpm).trans hfacts.1.symm

/-- Draining a valid heap yields a permutation of its contents in which
every element dominates (per the comparator) all later ones. -/
theorem drain_facts {cmp : α → α → Int} (hc : IsTotalPreorderCmp cmp)
    (a : List α) (h : HeapProp cmp a) :
    List.Pairwise (fun x y => 0 ≤ cmp x y) (drain cmp a) ∧
      List.Perm (drain cmp a) a :=
  drain_facts_aux hc a.length a (le_refl _) h

theorem Insert_perm (cmp : α → α → Int) (a : List α) (x : α) :
    List.Perm (Insert cmp a x) (x :: a) := by
  unfold Insert
  exact (upHeap_perm cmp _ _).trans (List.perm_append_singleton x a)

theorem foldl_insert_heapProp {cmp : α → α → Int} (hc : IsTotalPreorderCmp cmp) :
    ∀ (l : List α) (a : List α), HeapProp cmp a →
    HeapProp cmp (l.foldl (Insert cmp) a) := by
  intro l
  induction l with
  | nil => intro a h; exact h
  | cons x l ih =>
    intro a h
    rw [List.foldl_cons]
    exact ih (Insert cmp a x) (Insert_heapProp hc a x h)

theorem foldl_insert_perm (cmp : α → α → Int) :
    ∀ (l : List α) (a : List α), List.Perm (l.foldl (Insert cmp) a) (a ++ l) := by
  intro l
  induction l with
  | nil => intro a; simp
  | cons x l ih =>
    intro a
    rw [List.foldl_cons]
    refine (ih (Insert cmp a x)).trans ?_
    refine ((Insert_perm cmp a x).append_right l).trans ?_
    exact List.perm_middle.symm

theorem HeapSort_idem [LinearOrder β] (a : List β) :
    HeapSort (HeapSort a) = HeapSort a :=
  List.eq_of_perm_of_sorted (HeapSort_perm (HeapSort a))
    (HeapSort_sorted (HeapSort a)) (HeapSort_sorted a)

/-- `Task` from the priority queue source; Go's `time.Time` creation stamp
is modelled as an integer creation marker, with `Before`/`After` as `<`/`>`. -/
structure Task (T : Type) where
  Priority : Int
  Time : Int
  Value : T
deriving DecidableEq, Repr

/-- The error value `ErrNotFound` (`item not found`). -/
inductive PQError where
  | errNotFound : PQError
deriving DecidableEq, Repr

/-- `PriorityCmp` from the source: higher priority first, then earlier
creation time first, else equal. -/
def PriorityCmp {T : Type} (a b : Task T) : Int :=
  if a.Priority < b.Priority then -1
  else if a.Priority > b.Priority then 1
  else if a.Time < b.Time then 1
  else if a.Time > b.Time then -1
  else 0

/-- The scan loop of `Update`: the index and task of the first stored task
whose payload equals `item`, if any. -/
def findTask {T : Type} [DecidableEq T] : List (Task T) → T → Option (Nat × Task T)
  | [], _ => none
  | t :: rest, item =>
    if t.Value = item then some (0, t)
    else (findTask rest item).map fun p => (p.1 + 1, p.2)

/-- `Update` from the priority queue source.  The scan is `findTask`; on a
hit the task's `Priority` field is mutated in place (`List.set` of the
updated record at the same slot), and one directed re-balance is issued:
`toLessThan` (old priority greater than new) calls the public `DownHeap`,
`toLargerThan` (old less than new) calls the public `UpHeap`.  The slot
index is a valid non-negative slice index, and on every backing slice in
the no-wrap region (`length ≤ 2^62 - 1`, covering every physically
constructible Go slice of tasks) the public `DownHeap` at such an index
equals the internal full-size sift-down (`DownHeap_nonneg`), so that total
form is used directly here. -/
def Update {T : Type} [DecidableEq T] (cmp : Task T → Task T → Int)
    (pq : List (Task T)) (item : T) (priority : Int) : Except PQError (List (Task T)) :=
  match findTask pq item with
  | none => .error .errNotFound
  | some (targetIdx, targetTask) =>
    if targetTask.Priority = priority then .ok pq
    else
      let pq' := pq.set targetIdx { targetTask with Priority := priority }
      if targetTask.Priority > priority then .ok (downHeap cmp pq' targetIdx)
      else if targetTask.Priority < priority then .ok (UpHeap cmp pq' (targetIdx : Int))
      else .ok pq'

/-- `PriorityQueue.Pop` from the source: delegate to the heap and propagate
the error unchanged. -/
def PQPop {T : Type} (cmp : Task T → Task T → Int) (pq : List (Task T)) :
    Except HeapError (Task T) × List (Task T) :=
  Pop cmp pq

/-- A custom priority-only min-heap comparator over tasks, as §9 of the
specification envisages a user passing to the generic queue. -/
def minTaskCmp {T : Type} (a b : Task T) : Int :=
  if a.Priority < b.Priority then 1
  else if b.Priority < a.Priority then -1
  else 0

theorem minTaskCmp_total (T : Type) : IsTotalPreorderCmp (minTaskCmp : Task T → Task T → Int) := by
  constructor
  · intro a b
    unfold minTaskCmp
    split_ifs <;> omega
  · intro a b c
    unfold minTaskCmp
    split_ifs <;> omega

theorem findTask_none {T : Type} [DecidableEq T] :
    ∀ (pq : List (Task T)) (item : T), (∀ t ∈ pq, t.Value ≠ item) →
    findTask pq item = none := by
  intro pq
  induction pq with
  | nil => intro item _; rfl
  | cons t rest ih =>
    intro item h
    rw [findTask, if_neg (h t (List.mem_cons_self t rest)),
      ih item fun t' ht' => h t' (List.mem_cons_of_mem t ht')]
    rfl

/-- C1: the claim asks that `Update` work for every total-preorder
comparator, deriving the sift direction from the comparator.  The code
instead derives the direction from a raw integer comparison of the old and
new priorities (a max-heap assumption).  This theorem evaluates the code at
a failing input: under a priority-only min-heap comparator (a total
preorder), the queue `[{P:1}, {P:2}]` is a valid heap, yet
`Update(value 0, priority 3)` sifts upward (a no-op at the root) instead of
downward, and the heap property is violated after the call. -/
theorem update_direction_not_comparator_driven :
    IsTotalPreorderCmp (minTaskCmp : Task Nat → Task Nat → Int) ∧
    HeapProp minTaskCmp [Task.mk 1 0 (0 : Nat), Task.mk 2 1 1] ∧
    Update minTaskCmp [Task.mk 1 0 (0 : Nat), Task.mk 2 1 1] 0 3 =
      .ok [Task.mk 3 0 0, Task.mk 2 1 1] ∧
    ¬ HeapProp minTaskCmp [Task.mk 3 0 (0 : Nat), Task.mk 2 1 1] :=
  ⟨minTaskCmp_total Nat, by decide,
    by simp [Update, findTask, UpHeap, upHeap, minTaskCmp], by decide⟩

/-- C2: for every total-preorder comparator, after any sequence of public
`Insert`/`Pop`/`UpHeap`/`DownHeap` calls (with arbitrary `int` index
arguments) starting from the empty heap that completes without a Go panic,
every non-root slot `i` of the backing array satisfies
`cmpFn(items[Parent(i)], items[i]) >= 0`. -/
theorem heap_property_after_any_call_sequence :
    ∀ (α : Type) (cmp : α → α → Int), IsTotalPreorderCmp cmp →
    ∀ (ops : List (HeapOp α)) (b : List α), runOps cmp ops [] = some b →
    HeapProp cmp b := by
  intro α cmp hc ops b h
  exact (runOps_heapProp hc ops [] b (heapProp_nil cmp) (by simp) h).1

theorem heap_property_after_any_call_sequence_witness :
    IsTotalPreorderCmp (maxCmp : Int → Int → Int) ∧
    runOps maxCmp [HeapOp.insertOp (3 : Int), HeapOp.insertOp 5, HeapOp.insertOp 4,
      HeapOp.upHeapOp 2, HeapOp.downHeapOp 0, HeapOp.popOp] [] = some [4, 3] ∧
    HeapProp maxCmp ([4, 3] : List Int) :=
  ⟨maxCmp_total Int,
    by simp [runOps, runOp, Insert, Pop, UpHeap, DownHeap, upHeap, downHeap,
      downHeapWithSize, downHeapWithSizeZ, zLargestStep, getZ, wrap64, dhLargest,
      dhStep, cmpAt, swap, maxCmp, Left, Right, Parent],
    heap_property_after_any_call_sequence Int maxCmp (maxCmp_total Int)
      [HeapOp.insertOp (3 : Int), HeapOp.insertOp 5, HeapOp.insertOp 4,
        HeapOp.upHeapOp 2, HeapOp.downHeapOp 0, HeapOp.popOp] [4, 3]
      (by simp [runOps, runOp, Insert, Pop, UpHeap, DownHeap, upHeap, downHeap,
        downHeapWithSize, downHeapWithSizeZ, zLargestStep, getZ, wrap64, dhLargest,
        dhStep, cmpAt, swap, maxCmp, Left, Right, Parent])⟩

/-- C3 counterexample: contrary to the claim that both public sift
primitives are no-ops on every out-of-range index, `DownHeap(-1)` panics:
the negative left-child index passes the `l < heapSize` test and the slice
access `items[l]` crashes, even on a one-element heap. -/
theorem downHeap_negative_index_crashes :
    DownHeap maxCmp ([5] : List Int) (-1) = some GoRes.crash ∧
    ¬ DownHeap maxCmp ([5] : List Int) (-1) = some (GoRes.ok [5]) := by
  constructor
  · simp [DownHeap, downHeapWithSizeZ, zLargestStep, getZ, wrap64]
  · simp [DownHeap, downHeapWithSizeZ, zLargestStep, getZ, wrap64]

/-- C3 (amended): `UpHeap` is bounds-checked and is a no-op on every
out-of-range index.  `DownHeap` has no bounds check and never modifies the
heap on an out-of-range index, but whether it returns or panics is decided
by the 64-bit child-index arithmetic: for indices from the size up to
`2^62 - 2` both (unwrapped) children fail the `l < heapSize` test and the
call is a no-op; from `2^62 - 1` up to the maximum `int` a child index
wraps negative, passes the test, and the call panics on every heap of
`int`-representable length; and for every index in `[-2^62, 0)` the
negative left child passes the test and the call panics on every heap. -/
theorem sift_out_of_range_amended :
    (∀ (α : Type) (cmp : α → α → Int) (a : List α) (i : Int),
      i < 0 ∨ (a.length : Int) ≤ i → UpHeap cmp a i = a) ∧
    (∀ (α : Type) (cmp : α → α → Int) (a : List α) (i : Int),
      i < 0 ∨ (a.length : Int) ≤ i →
      DownHeap cmp a i = some (.ok a) ∨ DownHeap cmp a i = some .crash) ∧
    (∀ (α : Type) (cmp : α → α → Int) (a : List α) (i : Int),
      (a.length : Int) ≤ i → i ≤ 2 ^ 62 - 2 → DownHeap cmp a i = some (.ok a)) ∧
    (∀ (α : Type) (cmp : α → α → Int) (a : List α) (i : Int),
      (a.length : Int) < 2 ^ 63 → 2 ^ 62 - 1 ≤ i → i ≤ 2 ^ 63 - 1 →
      DownHeap cmp a i = some .crash) ∧
    (∀ (α : Type) (cmp : α → α → Int) (a : List α) (i : Int),
      -2 ^ 62 ≤ i → i < 0 → DownHeap cmp a i = some .crash) := by
  refine ⟨?_, ?_, ?_, ?_, ?_⟩
  · intro α cmp a i h
    unfold UpHeap
    rw [if_pos h]
  · intro α cmp a i h
    exact DownHeap_oob_no_mutate cmp a h
  · intro α cmp a i h1 h2
    exact DownHeap_oob_high_noop cmp a h1 h2
  · intro α cmp a i hn h1 h2
    exact DownHeap_high_crash cmp a hn h1 h2
  · intro α cmp a i h2 h1
    exact DownHeap_neg cmp a h2 h1

theorem sift_out_of_range_amended_witness :
    ((-4 : Int) < 0 ∨ (([1, 2] : List Int).length : Int) ≤ -4) ∧
    UpHeap maxCmp ([1, 2] : List Int) (-4) = [1, 2] ∧
    ((9 : Int) < 0 ∨ (([1, 2] : List Int).length : Int) ≤ 9) ∧
    (DownHeap maxCmp ([1, 2] : List Int) 9 = some (.ok [1, 2]) ∨
      DownHeap maxCmp ([1, 2] : List Int) 9 = some .crash) ∧
    (([1, 2] : List Int).length : Int) ≤ 7 ∧ (7 : Int) ≤ 2 ^ 62 - 2 ∧
    DownHeap maxCmp ([1, 2] : List Int) 7 = some (.ok [1, 2]) ∧
    (([1, 2] : List Int).length : Int) < 2 ^ 63 ∧
    (2 ^ 62 - 1 : Int) ≤ 2 ^ 62 ∧ (2 ^ 62 : Int) ≤ 2 ^ 63 - 1 ∧
    DownHeap maxCmp ([1, 2] : List Int) (2 ^ 62) = some .crash ∧
    (-2 ^ 62 : Int) ≤ -3 ∧ (-3 : Int) < 0 ∧
    DownHeap maxCmp ([1, 2] : List Int) (-3) = some .crash :=
  ⟨by decide,
    sift_out_of_range_amended.1 Int maxCmp [1, 2] (-4) (by decide),
    by decide,
    sift_out_of_range_amended.2.1 Int maxCmp [1, 2] 9 (by decide),
    by decide,
    by decide,
    sift_out_of_range_amended.2.2.1 Int maxCmp [1, 2] 7 (by decide) (by decide),
    by decide,
    by decide,
    by decide,
    sift_out_of_range_amended.2.2.2.1 Int maxCmp [1, 2] (2 ^ 62) (by decide) (by decide)
      (by decide),
    by decide,
    by decide,
    sift_out_of_range_amended.2.2.2.2 Int maxCmp [1, 2] (-3) (by decide) (by decide)⟩

/-- C4: for every array over a linearly ordered type, `HeapSort` returns an
ascending-ordered permutation of its input of the same length, sorting is
idempotent, and in particular `HeapSort [5,3,8,1,9,2] = [1,2,3,5,8,9]`. -/
theorem heapSort_sorted_perm_idempotent :
    (∀ (β : Type) [LinearOrder β] (a : List β),
      List.Perm (HeapSort a) a ∧ List.Sorted (· ≤ ·) (HeapSort a) ∧
      (HeapSort a).length = a.length ∧ HeapSort (HeapSort a) = HeapSort a) ∧
    HeapSort ([5, 3, 8, 1, 9, 2] : List Int) = [1, 2, 3, 5, 8, 9] := by
  constructor
  · intro β _ a
    exact ⟨HeapSort_perm a, HeapSort_sorted a, HeapSort_length a, HeapSort_idem a⟩
  · simp [HeapSort, heapSortLoop, BuildMaxHeap, BuildHeap, buildHeapLoop,
      downHeapWithSize, dhLargest, dhStep, cmpAt, swap, maxCmp, Left, Right]

/-- C5: for every total-preorder comparator, `BuildHeap` returns a
permutation of its input satisfying the heap property at every node
(heapified bottom-up with sift-down from `size/2 - 1` to `0` under the full
size); in particular `BuildMaxHeap [10,30,20,40,50]` places `50` at the
root. -/
theorem buildHeap_correct :
    (∀ (α : Type) (cmp : α → α → Int), IsTotalPreorderCmp cmp → ∀ (a : List α),
      List.Perm (BuildHeap cmp a) a ∧ HeapProp cmp (BuildHeap cmp a)) ∧
    (BuildMaxHeap ([10, 30, 20, 40, 50] : List Int))[0]? = some 50 := by
  constructor
  · intro α cmp hc a
    exact ⟨BuildHeap_perm cmp a, BuildHeap_heapProp hc a⟩
  · simp [BuildMaxHeap, BuildHeap, buildHeapLoop, downHeapWithSize, dhLargest,
      dhStep, cmpAt, swap, maxCmp, Left, Right]

theorem buildHeap_correct_witness :
    IsTotalPreorderCmp (maxCmp : Int → Int → Int) ∧
    (List.Perm (BuildHeap maxCmp ([10, 30, 20, 40, 50] : List Int))
        [10, 30, 20, 40, 50] ∧
      HeapProp maxCmp (BuildHeap maxCmp ([10, 30, 20, 40, 50] : List Int))) :=
  ⟨maxCmp_total Int,
    buildHeap_correct.1 Int maxCmp (maxCmp_total Int) [10, 30, 20, 40, 50]⟩

/-- C6: inserting the values 10, 30, 20, 40, 50, 15, 25 in any order into a
max heap (`NewMaxHeap`'s comparator) and then popping repeatedly (`drain`
performs exactly seven `Pop` calls on this seven-element heap) yields
exactly the strictly non-increasing sequence 50, 40, 30, 25, 20, 15, 10. -/
theorem pop_order_max_heap :
    ∀ (l : List Int), List.Perm l [10, 30, 20, 40, 50, 15, 25] →
    drain maxCmp (l.foldl (Insert maxCmp) []) = [50, 40, 30, 25, 20, 15, 10] := by
  intro l hl
  have hheap := foldl_insert_heapProp (maxCmp_total Int) l [] (heapProp_nil maxCmp)
  obtain ⟨hpw, hpm⟩ := drain_facts (maxCmp_total Int) _ hheap
  have hperm : List.Perm (drain maxCmp (l.foldl (Insert maxCmp) []))
      [50, 40, 30, 25, 20, 15, 10] :=
    (hpm.trans ((foldl_insert_perm maxCmp l []).trans (hl.trans (by decide))))
  have hsorted : List.Pairwise (fun x y : Int => x ≥ y)
      (drain maxCmp (l.foldl (Insert maxCmp) [])) := by
    refine hpw.imp ?_
    intro x y h
    exact (maxCmp_nonneg_iff x y).mp h
  exact List.eq_of_perm_of_sorted hperm hsorted (by decide)

theorem pop_order_max_heap_witness :
    List.Perm ([10, 30, 20, 40, 50, 15, 25] : List Int)
      [10, 30, 20, 40, 50, 15, 25] ∧
    drain maxCmp (([10, 30, 20, 40, 50, 15, 25] : List Int).foldl
      (Insert maxCmp) []) = [50, 40, 30, 25, 20, 15, 10] :=
  ⟨by decide, pop_order_max_heap [10, 30, 20, 40, 50, 15, 25] (by decide)⟩

/-- C7: `PriorityCmp(a, b)` is positive exactly when `a.Priority >
b.Priority` or the priorities tie and `a`'s creation time is strictly
earlier, and zero exactly when both the priorities and the creation times
are equal. -/
theorem priorityCmp_ordering :
    ∀ (T : Type) (a b : Task T),
      (0 < PriorityCmp a b ↔
        (b.Priority < a.Priority ∨ (a.Priority = b.Priority ∧ a.Time < b.Time))) ∧
      (PriorityCmp a b = 0 ↔ (a.Priority = b.Priority ∧ a.Time = b.Time)) := by
  intro T a b
  constructor
  · unfold PriorityCmp
    split_ifs with h1 h2 h3 h4
    all_goals try simp only [false_iff, true_iff, iff_false, iff_true]
    all_goals omega
  · unfold PriorityCmp
    split_ifs with h1 h2 h3 h4
    all_goals try simp only [false_iff, true_iff, iff_false, iff_true]
    all_goals omega

/-- C8: `Update` leaves the queue's contents and order entirely unchanged
in both non-rebalancing cases: when no stored task's payload equals the
value it returns `ErrNotFound`, and when the first matching task's priority
already equals the new priority it returns success with the same backing
list. -/
theorem update_no_rebalance_unchanged :
    ∀ (T : Type) [DecidableEq T] (cmp : Task T → Task T → Int)
      (pq : List (Task T)) (item : T) (p : Int),
      ((∀ t ∈ pq, t.Value ≠ item) → Update cmp pq item p = .error .errNotFound) ∧
      (∀ i t, findTask pq item = some (i, t) → t.Priority = p →
        Update cmp pq item p = .ok pq) := by
  intro T _ cmp pq item p
  constructor
  · intro h
    unfold Update
    rw [findTask_none pq item h]
  · intro i t hf hp
    unfold Update
    rw [hf]
    simp only []
    rw [if_pos hp]

theorem update_no_rebalance_unchanged_witness :
    (∀ t ∈ [Task.mk 10 0 (1 : Nat), Task.mk 5 1 2], t.Value ≠ 99) ∧
    Update PriorityCmp [Task.mk 10 0 (1 : Nat), Task.mk 5 1 2] 99 1 =
      .error .errNotFound ∧
    findTask [Task.mk 10 0 (1 : Nat), Task.mk 5 1 2] 1 = some (0, Task.mk 10 0 1) ∧
    Update PriorityCmp [Task.mk 10 0 (1 : Nat), Task.mk 5 1 2] 1 10 =
      .ok [Task.mk 10 0 (1 : Nat), Task.mk 5 1 2] :=
  ⟨by decide,
    (update_no_rebalance_unchanged Nat PriorityCmp
      [Task.mk 10 0 (1 : Nat), Task.mk 5 1 2] 99 1).1 (by decide),
    by decide,
    (update_no_rebalance_unchanged Nat PriorityCmp
      [Task.mk 10 0 (1 : Nat), Task.mk 5 1 2] 1 10).2 0 (Task.mk 10 0 1)
      (by decide) (by decide)⟩

/-- C9: on every heap of size zero, `Pop` and `Peek` return the typed
`ErrorIsEmpty` error and no element, leaving the state unchanged; the
priority queue's `Pop` propagates the same typed error. -/
theorem pop_peek_empty_typed_error :
    (∀ (α : Type) (cmp : α → α → Int) (a : List α), a.length = 0 →
      Pop cmp a = (.error .errorIsEmpty, a) ∧ Peek a = .error .errorIsEmpty) ∧
    (∀ (T : Type) (cmp : Task T → Task T → Int) (pq : List (Task T)),
      pq.length = 0 → PQPop cmp pq = (.error .errorIsEmpty, pq)) := by
  constructor
  · intro α cmp a h
    obtain rfl : a = [] := List.length_eq_zero.mp h
    exact ⟨rfl, rfl⟩
  · intro T cmp pq h
    obtain rfl : pq = [] := List.length_eq_zero.mp h
    rfl

theorem pop_peek_empty_typed_error_witness :
    (([] : List Int).length = 0 ∧
      Pop maxCmp ([] : List Int) = (.error .errorIsEmpty, []) ∧
      Peek ([] : List Int) = .error .errorIsEmpty) ∧
    (([] : List (Task Nat)).length = 0 ∧
      PQPop PriorityCmp ([] : List (Task Nat)) = (.error .errorIsEmpty, [])) :=
  ⟨⟨rfl, pop_peek_empty_typed_error.1 Int maxCmp [] rfl⟩,
    ⟨rfl, pop_peek_empty_typed_error.2 Nat PriorityCmp [] rfl⟩⟩

/-- C10: both iterative sift loops terminate for every comparator function
whatsoever (no ordering laws assumed).  The fuel-indexed `upHeap` loop
finishes within `index + 1` iterations because the working index strictly
decreases.  The fuel-indexed `downHeapWithSize` loop finishes within
`length + 2` iterations for every `int` start index and every `heapSize` —
including indices whose child computation wraps around `int64`, where the
loop exits by panicking — because a recursion step always lands on a valid
index in `[0, 2^63)` and from there the working index strictly increases
through valid slots; on the no-wrap region the result is moreover exactly
the total `Nat`-indexed model. -/
theorem sift_loops_terminate :
    (∀ (α : Type) (cmp : α → α → Int) (a : List α) (index : Nat),
      upHeapF cmp (index + 1) a index = some (upHeap cmp a index)) ∧
    (∀ (α : Type) (cmp : α → α → Int) (a : List α) (index heapSize : Int),
      ∃ r, downHeapWithSizeZ cmp a index heapSize (a.length + 2) = some r) ∧
    (∀ (α : Type) (cmp : α → α → Int) (a : List α) (index bound : Nat),
      bound ≤ a.length → index ≤ 2 ^ 62 - 2 → bound ≤ 2 ^ 62 - 1 →
      downHeapWithSizeZ cmp a index bound (bound + 1) =
        some (.ok (downHeapWithSize cmp a index bound))) := by
  refine ⟨?_, ?_, ?_⟩
  · intro α cmp a index
    exact upHeapF_eq cmp (index + 1) a index (by omega)
  · intro α cmp a index heapSize
    exact downHeapWithSizeZ_total cmp a index heapSize
  · intro α cmp a index bound h hi hb
    exact downHeapWithSizeZ_eq_ok cmp a index bound h hi hb (bound + 1) (by omega)

theorem sift_loops_terminate_witness :
    upHeapF maxCmp 2 ([1, 2] : List Int) 1 = some (upHeap maxCmp [1, 2] 1) ∧
    (∃ r, downHeapWithSizeZ maxCmp ([3, 1, 2] : List Int) (-5) 3 5 = some r) ∧
    (3 : Nat) ≤ ([3, 1, 2] : List Int).length ∧ (0 : Nat) ≤ 2 ^ 62 - 2 ∧
    (3 : Nat) ≤ 2 ^ 62 - 1 ∧
    downHeapWithSizeZ maxCmp ([3, 1, 2] : List Int) 0 3 4 =
      some (.ok (downHeapWithSize maxCmp [3, 1, 2] 0 3)) :=
  ⟨sift_loops_terminate.1 Int maxCmp [1, 2] 1,
    sift_loops_terminate.2.1 Int maxCmp [3, 1, 2] (-5) 3,
    by decide,
    by decide,
    by decide,
    sift_loops_terminate.2.2 Int maxCmp [3, 1, 2] 0 3 (by decide) (by decide) (by decide)⟩

end HeapGo
